import Mathlib

/-!
# HNReplies: the fetch multiplexer and the resolution round

A shallow embedding of `src/main.cpp`.

* The globals of the anonymous namespace (`g_cm`, `g_nFetches`,
  `g_totalBytesDownloaded`, `g_fetchQueue`, `g_fetchCache`, `g_fetchData`) are the
  fields of `Globals`; every function that touches them is a state transformer.
* libcurl is the environment.  What one call of `updateRequests_impl` gets from it
  (the messages of `curl_multi_info_read`, the write callbacks fired inside
  `curl_multi_perform`, the value stored into `still_alive`) is a `PumpInput`.
* `json.h` is not part of the sources; `JSON::parseJSONMap`, `JSON::parseIntArray`
  and the conversions `std::stoi`, `std::stoll` are the fields of `Parsers`, a
  parameter of everything that decodes an item.  A thrown exception is `none`.
* The three loops of a round are also given over any `Fetcher` (`roundG`); the round
  of the program is the instance at the blocking fetch (`round_eq_roundG`), and a
  deterministic fetch outcome is the instance `oracleFetcher`.
* Integers: `uint64_t` sums are taken modulo `2^64`, the narrowing
  `int n = ids0.size()` is `toInt32`, and the process-wide request counter
  `g_nFetches`, an `int`, is incremented with `wrapInt32`.  The counters of one round
  are bounded by the length of its change set and are natural numbers; `nRetries`
  only counts down from the value it is called with.
-/

namespace HNReplies

/-! ## curl functionality (anonymous namespace) -/

/-- Embeds `#define MAX_PARALLEL 64`. -/
def MAX_PARALLEL : Nat := 64

/-- Embeds `struct Data`: one fetch slot.  `eh` is `false` for `NULL` and `true` once
`curl_easy_init` has created the easy handle of the slot. -/
structure Data where
  eh : Bool := false
  running : Bool := false
  uri : String := ""
  content : String := ""
deriving DecidableEq, Repr, Inhabited

/-- A message returned by `curl_multi_info_read`.  `DONE idx` is a `CURLMSG_DONE`
whose easy handle carries `&g_fetchData[idx]` as `CURLINFO_PRIVATE`; `OTHER` is any
other message kind. -/
inductive CURLMsg where
  | DONE (idx : Nat)
  | OTHER (code : Int)
deriving DecidableEq, Repr

/-- What libcurl hands to one call of `updateRequests_impl`: the queued messages,
the write callbacks `(idx, bytes)` fired by `curl_multi_perform` (in order), and the
number it stores into `still_alive`. -/
structure PumpInput where
  msgs : List CURLMsg := []
  chunks : List (Nat × String) := []
  still_alive : Int := 0
deriving Repr, Inhabited

/-- The globals of the anonymous namespace.  `g_cm` is the multi handle, modelled by
the slot indices of the easy handles currently added to it. -/
structure Globals where
  g_cm : List Nat := []
  g_nFetches : Int := 0
  g_totalBytesDownloaded : Nat := 0
  g_fetchQueue : List String := []
  g_fetchCache : String → Option String := fun _ => none
  g_fetchData : List Data := List.replicate MAX_PARALLEL {}

/-- The state at program start: static initialisation of the globals. -/
def Globals.init : Globals := {}

/-- Embeds `g_fetchCache[uri] = body`. -/
def cacheSet (cache : String → Option String) (uri body : String) : String → Option String :=
  fun v => if v = uri then some body else cache v

/-- Embeds `g_fetchCache.erase(uri)`. -/
def cacheErase (cache : String → Option String) (uri : String) : String → Option String :=
  fun v => if v = uri then none else cache v

/-- An assignment to fields of `g_fetchData[idx]`. -/
def slotUpdate (slots : List Data) (idx : Nat) (f : Data → Data) : List Data :=
  match slots[idx]? with
  | none => slots
  | some data => slots.set idx (f data)

/-- Embeds `writeFunction(ptr, size, nmemb, &g_fetchData[idx])` with `bytes` the
`size*nmemb` bytes at `ptr`.  libcurl only calls it with the pointer of a slot. -/
def writeFunction (idx : Nat) (bytes : String) (s : Globals) : Globals :=
  match s.g_fetchData[idx]? with
  | none => s
  | some data =>
    let content := data.content ++ bytes
    { s with
      g_totalBytesDownloaded := (s.g_totalBytesDownloaded + bytes.utf8ByteSize) % 2 ^ 64
      g_fetchCache := cacheSet s.g_fetchCache data.uri content
      g_fetchData := s.g_fetchData.set idx { data with content := "" } }

/-- Embeds `getJSONForURI_impl(uri)`: the result and the state after the call. -/
def getJSONForURI_impl (uri : String) (s : Globals) : String × Globals :=
  match s.g_fetchCache uri with
  | some res => (res, { s with g_fetchCache := cacheErase s.g_fetchCache uri })
  | none => ("", s)

/-- Embeds `requestJSONForURI_impl(uri)`. -/
def requestJSONForURI_impl (uri : String) (s : Globals) : Globals :=
  { s with g_fetchQueue := s.g_fetchQueue ++ [uri] }

/-- The body of the `curl_multi_info_read` loop for one message. -/
def handleMsg (s : Globals) (msg : CURLMsg) : Globals :=
  match msg with
  | .DONE idx =>
    { s with
      g_fetchData := slotUpdate s.g_fetchData idx (fun data => { data with running := false })
      g_cm := s.g_cm.erase idx }
  | .OTHER _ => s

/-- The free-slot scan `int idx = 0; while (g_fetchData[idx].running) { ++idx; if
(idx == g_fetchData.size()) break; }`, started at `idx` with `fuel` iterations left. -/
def scanIdle (slots : List Data) : Nat → Nat → Nat
  | 0, idx => idx
  | fuel + 1, idx =>
    if (slots.getD idx default).running then
      if idx + 1 = slots.length then idx + 1 else scanIdle slots fuel (idx + 1)
    else idx

/-- Embeds `addTransfer(g_cm, idx, uri)`: create the easy handle on first use and add it to
the multi handle (the URL and the callback data are options of the handle). -/
def addTransfer (idx : Nat) (s : Globals) : Globals :=
  { s with
    g_fetchData := slotUpdate s.g_fetchData idx (fun data => { data with eh := true })
    g_cm := s.g_cm ++ [idx] }

/-- The value an `int` holds after an arithmetic result `x`: `x` reduced into
`[-2^31, 2^31)` in two's complement, which is what `++g_nFetches` leaves at `INT_MAX`
in the compiled program (`INT_MIN`). -/
def wrapInt32 (x : Int) : Int :=
  (x + 2 ^ 31) % 2 ^ 32 - 2 ^ 31

/-- The dispatch loop `while (still_alive < MAX_PARALLEL && g_fetchQueue.size() > 0)`
of `updateRequests_impl`, by recursion on the queue it pops.  Returns the state and
the `addTransfer(idx, uri)` calls it made, in order.  `++g_nFetches` is an increment
of an `int`. -/
def dispatchLoop : List String → Int → Globals → Globals × List (Nat × String)
  | [], _, s => ({ s with g_fetchQueue := [] }, [])
  | uri :: rest, still_alive, s =>
    if still_alive < (MAX_PARALLEL : Int) then
      let idx := scanIdle s.g_fetchData s.g_fetchData.length 0
      if idx = s.g_fetchData.length then ({ s with g_fetchQueue := uri :: rest }, [])
      else
        let s1 : Globals :=
          { s with
            g_fetchQueue := rest
            g_nFetches := wrapInt32 (s.g_nFetches + 1)
            g_fetchData := slotUpdate s.g_fetchData idx
              (fun data => { data with running := true, uri := uri }) }
        let r := dispatchLoop rest (still_alive + 1) (addTransfer idx s1)
        (r.1, (idx, uri) :: r.2)
    else ({ s with g_fetchQueue := uri :: rest }, [])

/-- The state of `updateRequests_impl` when it reaches the dispatch loop: messages
handled, then the write callbacks of `curl_multi_perform`. -/
def beforeDispatch (inp : PumpInput) (s : Globals) : Globals :=
  inp.chunks.foldl (fun t c => writeFunction c.1 c.2 t) (inp.msgs.foldl handleMsg s)

/-- Embeds `updateRequests_impl()` together with the transfers it added. -/
def updateRequests_run (inp : PumpInput) (s : Globals) : Globals × List (Nat × String) :=
  let s1 := beforeDispatch inp s
  dispatchLoop s1.g_fetchQueue inp.still_alive s1

/-- Embeds `updateRequests_impl()`. -/
def updateRequests_impl (inp : PumpInput) (s : Globals) : Globals :=
  (updateRequests_run inp s).1

/-- The operations on the multiplexer. -/
inductive Op where
  | enqueue (uri : String)
  | pump (inp : PumpInput)
  | write (idx : Nat) (bytes : String)
  | read (uri : String)

/-- One operation. -/
def Op.step (s : Globals) : Op → Globals
  | .enqueue uri => requestJSONForURI_impl uri s
  | .pump inp => updateRequests_impl inp s
  | .write idx bytes => writeFunction idx bytes s
  | .read uri => (getJSONForURI_impl uri s).2

/-- A sequence of operations, left to right. -/
def run (ops : List Op) (s : Globals) : Globals :=
  ops.foldl Op.step s

/-- Number of slots with `running == true`. -/
def busyCount (s : Globals) : Nat :=
  s.g_fetchData.countP (fun d => d.running)

/-- The slot `g_fetchData[i]`. -/
def Globals.slot (s : Globals) (i : Nat) : Data :=
  s.g_fetchData.getD i default

/-- The URI of slot `idx`, as the list of cache keys a write callback on that slot
assigns (empty when there is no such slot). -/
def slotURI (s : Globals) (idx : Nat) : List String :=
  match s.g_fetchData[idx]? with
  | none => []
  | some data => [data.uri]

/-- The cache keys assigned by the write callbacks `chunks`, fired in order from `s`. -/
def chunkURIs : List (Nat × String) → Globals → List String
  | [], _ => []
  | c :: cs, s => slotURI s c.1 ++ chunkURIs cs (writeFunction c.1 c.2 s)

/-- The cache keys assigned by the write callbacks of one operation. -/
def Op.written (s : Globals) : Op → List String
  | .pump inp => chunkURIs inp.chunks (inp.msgs.foldl handleMsg s)
  | .write idx _ => slotURI s idx
  | _ => []

/-- The cache keys assigned by write callbacks while `ops` runs from `s`. -/
def written : List Op → Globals → List String
  | [], _ => []
  | op :: ops, s => op.written s ++ written ops (op.step s)

/-- The URIs of the slots a `CURLMSG_DONE` is handled for, in the messages `msgs`
taken from `s`: the transfers reported complete. -/
def doneURIs : List CURLMsg → Globals → List String
  | [], _ => []
  | .DONE idx :: ms, s => slotURI s idx ++ doneURIs ms (handleMsg s (.DONE idx))
  | .OTHER c :: ms, s => doneURIs ms (handleMsg s (.OTHER c))

/-- The URIs of the transfers reported complete while `ops` runs from `s`. -/
def completed : List Op → Globals → List String
  | [], _ => []
  | .pump inp :: ops, s => doneURIs inp.msgs s ++ completed ops ((Op.pump inp).step s)
  | op :: ops, s => completed ops (op.step s)

/-! ## namespace HN -/

/-- The collaborators that are not in the sources: `JSON::parseJSONMap` and
`JSON::parseIntArray` of `json.h`, and the standard conversions `std::stoi` and
`std::stoll`.  `ItemData` (`std::map<std::string, std::string>`) is its lookup
function; `none` from a conversion is a thrown exception. -/
structure Parsers where
  parseJSONMap : String → (String → Option String)
  parseIntArray : String → Option (List Int)
  stoi : String → Option Int
  stoll : String → Option Int

/-- Embeds `kAPIItem`. -/
def kAPIItem : String := "https://hacker-news.firebaseio.com/v0/item/"

/-- Embeds `kAPIUpdates`. -/
def kAPIUpdates : String := "https://hacker-news.firebaseio.com/v0/updates.json"

/-- Embeds `enum class ItemType`. -/
inductive ItemType where
  | Unknown | Story | Comment | Job | Poll | PollOpt
deriving DecidableEq, Repr

/-- Embeds `struct Comment`; `time` is a `uint64_t`. -/
structure Comment where
  by_ : String := ""
  id : Int := 0
  kids : List Int := []
  parent : Int := 0
  text : String := ""
  time : Nat := 0
deriving DecidableEq, Repr, Inhabited

/-- The program state as the functions of `namespace HN` and `main` see it: the
globals, and how many times `updateRequests_impl` has been called.  The transport is
a function from that call number to what libcurl delivers in the call. -/
structure World where
  g : Globals := {}
  pumps : Nat := 0

/-- Embeds `HN::requestJSONForURI(uri)`. -/
def requestJSONForURI (uri : String) (w : World) : World :=
  { w with g := requestJSONForURI_impl uri w.g }

/-- A call of `updateRequests_impl()` against the transport `env`. -/
def updateRequests (env : Nat → PumpInput) (w : World) : World :=
  { g := updateRequests_impl (env w.pumps) w.g, pumps := w.pumps + 1 }

/-- The loop `while (json.empty() && nRetries-- > 0)` of `HN::getJSONForURI`, with
`n` the retries left. -/
def retryLoop (env : Nat → PumpInput) (uri : String) : Nat → String → World → String × World
  | 0, json, w => (json, w)
  | n + 1, json, w =>
    if json = "" then
      let w1 := updateRequests env w
      let r := getJSONForURI_impl uri w1.g
      retryLoop env uri n r.1 { w1 with g := r.2 }
    else (json, w)

/-- Embeds `HN::getJSONForURI(uri, nRetries, tRetry_ms)`; the sleep has no effect on the
state. -/
def getJSONForURI (env : Nat → PumpInput) (uri : String) (nRetries : Int) (_tRetry_ms : Int)
    (w : World) : String × World :=
  let r := getJSONForURI_impl uri w.g
  retryLoop env uri nRetries.toNat r.1 { w with g := r.2 }

/-- Embeds `HN::getItemURI(id)`. -/
def getItemURI (id : Int) : String :=
  kAPIItem ++ toString id ++ ".json"

/-- Embeds `HN::getItemType(itemData)`. -/
def getItemType (itemData : String → Option String) : ItemType :=
  match itemData "type" with
  | none => .Unknown
  | some strType =>
    if strType = "story" then .Story
    else if strType = "comment" then .Comment
    else if strType = "job" then .Job
    else if strType = "poll" then .Poll
    else if strType = "pollopt" then .PollOpt
    else .Unknown

/-- Embeds `HN::parseComment(data, res)`: every field of `res` is assigned, so the result
does not depend on the old `res`.  Each `try`/`catch (...)` is a `match` on the
lookup `data.at(key)` followed by the conversion. -/
def parseComment (P : Parsers) (data : String → Option String) : Comment :=
  { by_ := match data "by" with
      | some v => v
      | none => "[deleted]"
    id := match (data "id").bind P.stoi with
      | some v => v
      | none => 0
    kids := match (data "kids").bind P.parseIntArray with
      | some v => v
      | none => []
    parent := match (data "parent").bind P.stoi with
      | some v => v
      | none => 0
    text := match data "text" with
      | some v => v
      | none => ""
    time := match (data "time").bind P.stoll with
      | some v => (v % 2 ^ 64).toNat
      | none => 0 }

/-- The conversion of a `size_t` to `int` (`int n = ids0.size()`). -/
def toInt32 (n : Nat) : Int :=
  ((n : Int) + 2 ^ 31) % 2 ^ 32 - 2 ^ 31

/-- The loop `for (int i = 0; i < n; ++i) if (ids0[i] != ids1[i]) return false;` of
`HN::same`, with `k` iterations left and the index at `i`. -/
def sameLoop (ids0 ids1 : List Int) : Nat → Nat → Bool
  | 0, _ => true
  | k + 1, i => if ids0.getD i 0 ≠ ids1.getD i 0 then false else sameLoop ids0 ids1 k (i + 1)

/-- Embeds `HN::same(ids0, ids1)`. -/
def same (ids0 ids1 : List Int) : Bool :=
  if ids0.length ≠ ids1.length then false
  else sameLoop ids0 ids1 (toInt32 ids0.length).toNat 0

/-! ## main -/

/-- Lines 362-368 of `main`: whether a round is started for the polled `idsCur`, and
the value of `idsOld` afterwards. -/
def mainCompare (idsCur idsOld : List Int) : Bool × List Int :=
  if same idsCur idsOld then (false, idsOld) else (true, idsCur)

/-- One file written in the commit loop: `./data/<author>/<id>` with the raw body. -/
structure Put where
  author : String
  id : Int
  body : String
deriving DecidableEq, Repr

/-- Embeds `pathReply` of a write. -/
def Put.pathReply (p : Put) : String :=
  "./data/" ++ p.author ++ "/" ++ toString p.id

/-- What `fout << raw.at(id) << std::endl` puts in the file. -/
def Put.fileContent (p : Put) : String :=
  p.body ++ "\n"

/-- Embeds `operator[]` followed by an assignment on a `std::map` with `int` keys, kept as a
list of pairs in increasing key order (the order the commit loop iterates in). -/
def mapInsert {α : Type} (k : Int) (v : α) : List (Int × α) → List (Int × α)
  | [] => [(k, v)]
  | e :: rest =>
    if k < e.1 then (k, v) :: e :: rest
    else if k = e.1 then (k, v) :: rest
    else e :: mapInsert k v rest

/-- Embeds `m[k] = v` on a map that is only looked up. -/
def mapSet (m : Int → Option String) (k : Int) (v : String) : Int → Option String :=
  fun j => if j = k then some v else m j

/-- The locals of one round of `main` (`by` is `by_`), and the files written. -/
structure Round where
  parents : List Int := []
  by_ : Int → Option String := fun _ => none
  raw : Int → Option String := fun _ => none
  comments : List (Int × Comment) := []
  nComments : Nat := 0
  nOther : Nat := 0
  nUpdated : Nat := 0
  nUnknown : Nat := 0
  nErrors : Nat := 0
  puts : List Put := []

/-- The block-fetch both loops of a round make for an item:
`HN::getJSONForURI(HN::getItemURI(id), 10, 1000)`. -/
def fetchItem (env : Nat → PumpInput) (id : Int) (w : World) : String × World :=
  getJSONForURI env (getItemURI id) 10 1000 w

/-- Lines 375-380: enqueue every changed id, then one `updateRequests_impl()`. -/
def roundStart (env : Nat → PumpInput) (idsCur : List Int) (w : World) : World :=
  updateRequests env (idsCur.foldl (fun v id => requestJSONForURI (getItemURI id) v) w)

/-- The body of the first loop over `idsCur` (lines 393-437). -/
def phaseA_step (P : Parsers) (env : Nat → PumpInput) (rw : Round × World) (id : Int) :
    Round × World :=
  let r := rw.1
  let w := rw.2
  if (r.by_ id).isSome then (r, w)
  else
    let f := fetchItem env id w
    let json := f.1
    let r1 : Round := { r with raw := mapSet r.raw id json }
    if json = "" then ({ r1 with nErrors := r1.nErrors + 1 }, f.2)
    else
      let data := P.parseJSONMap json
      let type := getItemType data
      match data "by" with
      | none => ({ r1 with nErrors := r1.nErrors + 1 }, f.2)
      | some a =>
        let r2 : Round := { r1 with by_ := mapSet r1.by_ id a }
        match type with
        | .Comment =>
          let cur := parseComment P data
          ({ r2 with
              nComments := r2.nComments + 1
              comments := mapInsert id cur r2.comments
              parents := r2.parents ++ [cur.parent] },
            requestJSONForURI (getItemURI cur.parent) f.2)
        | _ => ({ r2 with nOther := r2.nOther + 1 }, f.2)

/-- The first loop of a round. -/
def phaseA (P : Parsers) (env : Nat → PumpInput) (idsCur : List Int) (rw : Round × World) :
    Round × World :=
  idsCur.foldl (phaseA_step P env) rw

/-- The body of the loop over `parents` (lines 440-460). -/
def phaseB_step (P : Parsers) (env : Nat → PumpInput) (rw : Round × World) (id : Int) :
    Round × World :=
  let r := rw.1
  let w := rw.2
  if (r.by_ id).isSome then (r, w)
  else
    let f := fetchItem env id w
    let json := f.1
    if json = "" then ({ r with nErrors := r.nErrors + 1 }, f.2)
    else
      let data := P.parseJSONMap json
      match data "by" with
      | none => ({ r with nErrors := r.nErrors + 1 }, f.2)
      | some a => ({ r with by_ := mapSet r.by_ id a }, f.2)

/-- The loop over `parents`. -/
def phaseB (P : Parsers) (env : Nat → PumpInput) (parents : List Int) (rw : Round × World) :
    Round × World :=
  parents.foldl (phaseB_step P env) rw

/-- The body of the commit loop (lines 463-479) for the entry `e` of `comments`.
`none` is the `std::out_of_range` of `raw.at(id)`, which nothing catches. -/
def phaseC_step (r : Round) (e : Int × Comment) : Option Round :=
  match r.by_ e.2.parent with
  | none => some { r with nUnknown := r.nUnknown + 1 }
  | some author =>
    match r.raw e.1 with
    | none => none
    | some body =>
      some { r with nUpdated := r.nUpdated + 1, puts := r.puts ++ [⟨author, e.1, body⟩] }

/-- The commit loop over the entries `es`. -/
def phaseC_loop : List (Int × Comment) → Round → Option Round
  | [], r => some r
  | e :: es, r =>
    match phaseC_step r e with
    | none => none
    | some r1 => phaseC_loop es r1

/-- The files the commit loop writes for the entries `es` under the maps `by_` and
`raw`: one per entry whose parent has an author, in the order of the entries. -/
def commitPuts (by_ raw : Int → Option String) (es : List (Int × Comment)) : List Put :=
  es.filterMap fun e =>
    match by_ e.2.parent, raw e.1 with
    | some author, some body => some ⟨author, e.1, body⟩
    | _, _ => none

/-- The commit loop of a round. -/
def phaseC (r : Round) : Option Round :=
  phaseC_loop r.comments r

/-- One round of `main` for the change set `idsCur` (lines 375-479): the locals at the
end of the round (`none` if an exception escaped) and the state of the program. -/
def round (P : Parsers) (env : Nat → PumpInput) (idsCur : List Int) (w : World) :
    Option Round × World :=
  let a := phaseA P env idsCur ({}, roundStart env idsCur w)
  let b := phaseB P env a.1.parents a
  (phaseC b.1, b.2)

/-! ## Instrumented views of the same code -/

/-- The slot indices the free-slot scan reads (`g_fetchData[idx].running` in the loop
condition), in order; same recursion as `scanIdle`. -/
def scanReads (slots : List Data) : Nat → Nat → List Nat
  | 0, _ => []
  | fuel + 1, idx =>
    idx :: (if (slots.getD idx default).running then
      if idx + 1 = slots.length then [] else scanReads slots fuel (idx + 1)
    else [])

/-- The bytes handed to the write callbacks `chunks`: the sum of their `size*nmemb`. -/
def chunkBytes (chunks : List (Nat × String)) : Nat :=
  (chunks.map fun c => c.2.utf8ByteSize).sum

/-- The bytes libcurl hands to write callbacks during one operation. -/
def Op.bytes : Op → Nat
  | .pump inp => chunkBytes inp.chunks
  | .write _ bytes => bytes.utf8ByteSize
  | _ => 0

/-- The transfers one operation adds (`addTransfer` calls), in order. -/
def Op.dispatched (s : Globals) : Op → List (Nat × String)
  | .pump inp => (updateRequests_run inp s).2
  | _ => []

/-- The `k`-th look into the cache that `HN::getJSONForURI(uri, ..)` makes when none
before it found a non-empty body: look 0 is the one before the loop, look `k + 1`
comes after one more `updateRequests_impl()`.  The result of the look and the state
after it. -/
def checkAfter (env : Nat → PumpInput) (uri : String) (w : World) : Nat → String × World
  | 0 => ((getJSONForURI_impl uri w.g).1, { w with g := (getJSONForURI_impl uri w.g).2 })
  | k + 1 =>
    let w1 := updateRequests env (checkAfter env uri w k).2
    ((getJSONForURI_impl uri w1.g).1, { w1 with g := (getJSONForURI_impl uri w1.g).2 })

/-- The two calls a round makes to fetch items, over any state `σ`: `fetch id` is
`HN::getJSONForURI(HN::getItemURI(id), 10, 1000)` and `request id` is
`HN::requestJSONForURI(HN::getItemURI(id))`. -/
structure Fetcher (σ : Type) where
  fetch : Int → σ → String × σ
  request : Int → σ → σ

/-- The fetcher of the program: the blocking fetch over the multiplexer and the
transport `env`. -/
def worldFetcher (env : Nat → PumpInput) : Fetcher World where
  fetch := fetchItem env
  request := fun id => requestJSONForURI (getItemURI id)

/-- A deterministic fetch outcome: every fetch of `id` returns `F id`, whenever it is
made. -/
def oracleFetcher (F : Int → String) : Fetcher Unit where
  fetch := fun id _ => (F id, ())
  request := fun _ _ => ()

/-- The body of the first loop over `idsCur` (lines 393-437), over any fetcher. -/
def phaseA_stepG {σ : Type} (P : Parsers) (Φ : Fetcher σ) (rw : Round × σ) (id : Int) :
    Round × σ :=
  let r := rw.1
  let w := rw.2
  if (r.by_ id).isSome then (r, w)
  else
    let f := Φ.fetch id w
    let json := f.1
    let r1 : Round := { r with raw := mapSet r.raw id json }
    if json = "" then ({ r1 with nErrors := r1.nErrors + 1 }, f.2)
    else
      let data := P.parseJSONMap json
      let type := getItemType data
      match data "by" with
      | none => ({ r1 with nErrors := r1.nErrors + 1 }, f.2)
      | some a =>
        let r2 : Round := { r1 with by_ := mapSet r1.by_ id a }
        match type with
        | .Comment =>
          let cur := parseComment P data
          ({ r2 with
              nComments := r2.nComments + 1
              comments := mapInsert id cur r2.comments
              parents := r2.parents ++ [cur.parent] },
            Φ.request cur.parent f.2)
        | _ => ({ r2 with nOther := r2.nOther + 1 }, f.2)

/-- The first loop of a round, over any fetcher. -/
def phaseAG {σ : Type} (P : Parsers) (Φ : Fetcher σ) (idsCur : List Int) (rw : Round × σ) :
    Round × σ :=
  idsCur.foldl (phaseA_stepG P Φ) rw

/-- The body of the loop over `parents` (lines 440-460), over any fetcher. -/
def phaseB_stepG {σ : Type} (P : Parsers) (Φ : Fetcher σ) (rw : Round × σ) (id : Int) :
    Round × σ :=
  let r := rw.1
  let w := rw.2
  if (r.by_ id).isSome then (r, w)
  else
    let f := Φ.fetch id w
    let json := f.1
    if json = "" then ({ r with nErrors := r.nErrors + 1 }, f.2)
    else
      let data := P.parseJSONMap json
      match data "by" with
      | none => ({ r with nErrors := r.nErrors + 1 }, f.2)
      | some a => ({ r with by_ := mapSet r.by_ id a }, f.2)

/-- The loop over `parents`, over any fetcher. -/
def phaseBG {σ : Type} (P : Parsers) (Φ : Fetcher σ) (parents : List Int) (rw : Round × σ) :
    Round × σ :=
  parents.foldl (phaseB_stepG P Φ) rw

/-- The three loops of a round (lines 393-479) from the state `w`, over any fetcher. -/
def roundG {σ : Type} (P : Parsers) (Φ : Fetcher σ) (idsCur : List Int) (w : σ) :
    Option Round × σ :=
  let a := phaseAG P Φ idsCur ({}, w)
  let b := phaseBG P Φ a.1.parents a
  (phaseC b.1, b.2)

/-! ## Concrete scenarios -/

/-- Item 1 is requested and dispatched to slot 0; the next pump delivers the chunk
"ab" to slot 0 and reports no completion. -/
def chunkOps : List Op :=
  [.enqueue (getItemURI 1), .pump {}, .pump { chunks := [(0, "ab")], still_alive := 1 }]

/-- Item 1 is requested and dispatched to slot 0; its body arrives as the chunk "ab"
in one pump and the chunk "cd" in the next; the pump after that reads the completion
message of slot 0. -/
def twoChunkOps : List Op :=
  [.enqueue (getItemURI 1), .pump {},
   .pump { chunks := [(0, "ab")], still_alive := 1 },
   .pump { chunks := [(0, "cd")], still_alive := 0 },
   .pump { msgs := [.DONE 0], still_alive := 0 }]

/-- One more pump of the transfer in slot 0: the chunk "cd" arrives, no completion
message is handled. -/
def laterChunkOps : List Op :=
  [.pump { chunks := [(0, "cd")], still_alive := 0 }]

/-- The raw body of item 100 in the end-to-end scenario. -/
def body100 : String :=
  "\x7b\"by\":\"alice\",\"id\":100,\"parent\":50,\"type\":\"comment\",\"text\":\"hi\"\x7d"

/-- The raw body of item 50 in the end-to-end scenario. -/
def body50 : String := "\x7b\"by\":\"bob\",\"id\":50,\"type\":\"story\"\x7d"

/-- The decoded mapping of `body100`. -/
def data100 : String → Option String := fun k =>
  if k = "by" then some "alice" else if k = "id" then some "100"
  else if k = "parent" then some "50" else if k = "type" then some "comment"
  else if k = "text" then some "hi" else none

/-- The decoded mapping of `body50`. -/
def data50 : String → Option String := fun k =>
  if k = "by" then some "bob" else if k = "id" then some "50"
  else if k = "type" then some "story" else none

/-- An instance of the decoding collaborators that knows the two bodies of the
scenario and the decimal numerals in them; everything else decodes to nothing. -/
def tableParsers : Parsers where
  parseJSONMap := fun body =>
    if body = body100 then data100 else if body = body50 then data50 else fun _ => none
  parseIntArray := fun _ => none
  stoi := fun s => if s = "100" then some 100 else if s = "50" then some 50 else none
  stoll := fun _ => none

/-- A transport for the end-to-end scenario: item 100 is dispatched to slot 0 by the
pump that starts the round (call 0); call 1 delivers its body; call 2 reports slot 0
complete and dispatches the parent, item 50, to slot 0; call 3 delivers its body. -/
def scenarioEnv : Nat → PumpInput := fun n =>
  if n = 1 then { chunks := [(0, body100)], still_alive := 1 }
  else if n = 2 then { msgs := [.DONE 0], still_alive := 0 }
  else if n = 3 then { chunks := [(0, body50)], still_alive := 1 }
  else {}

/-- A transport that never delivers anything. -/
def deadEnv : Nat → PumpInput := fun _ => {}

/-- A transport for a round over `[100]` in which the parent is never delivered: call
1 delivers the body of item 100, nothing else ever arrives. -/
def lostParentEnv : Nat → PumpInput := fun n =>
  if n = 1 then { chunks := [(0, body100)], still_alive := 1 } else {}

/-- Item 1 runs in slot 0 and the URI of item 2 waits in the queue. -/
def busyState : Globals :=
  run [.enqueue (getItemURI 1), .pump {}, .enqueue (getItemURI 2)] Globals.init

/-- The deterministic fetch outcome of the end-to-end scenario: item 100 and item 50
have their bodies, every other item comes back empty. -/
def scenarioOracle : Int → String := fun id =>
  if id = 100 then body100 else if id = 50 then body50 else ""

/-! ## Invariants -/

/-- The array has `MAX_PARALLEL` slots, no easy handle is added to the multi handle
twice, and every added handle belongs to a slot that is marked running. -/
def Admission (s : Globals) : Prop :=
  s.g_fetchData.length = MAX_PARALLEL ∧ s.g_cm.Nodup ∧ ∀ i ∈ s.g_cm, (s.slot i).running = true

/-- Every slot's private buffer `content` is empty. -/
def BuffersEmpty (s : Globals) : Prop :=
  ∀ i, (s.slot i).content = ""

/-- What the loops of a round maintain: `comments` is in increasing key order, and
every id in it has an entry in `raw` and in `by`. -/
def RoundInv (r : Round) : Prop :=
  (r.comments.map Prod.fst).Pairwise (· < ·) ∧
  ∀ e ∈ r.comments, (r.raw e.1).isSome = true ∧ (r.by_ e.1).isSome = true

/-- What the two fetch loops maintain about the recorded comments: `comments` is in
increasing key order; every recorded id has a non-empty entry in `raw`, its comment and
its entry in `by` are decoded from that entry, and that entry has type comment; and
`nComments` is the number of recorded ids. -/
def RoundFacts (P : Parsers) (r : Round) : Prop :=
  (r.comments.map Prod.fst).Pairwise (· < ·) ∧
  (∀ e ∈ r.comments, ∃ body, r.raw e.1 = some body ∧ body ≠ "" ∧
    e.2 = parseComment P (P.parseJSONMap body) ∧
    r.by_ e.1 = P.parseJSONMap body "by" ∧ (r.by_ e.1).isSome = true ∧
    getItemType (P.parseJSONMap body) = .Comment) ∧
  r.nComments = r.comments.length

/-- The locals `r2` are those of `r1` except for the entry of `f` in `raw` and for
`nErrors`, which is larger by `k`. -/
def SameButErrors (f : Int) (k : Nat) (r1 r2 : Round) : Prop :=
  r2.by_ = r1.by_ ∧ r2.comments = r1.comments ∧ r2.parents = r1.parents ∧
  r2.nComments = r1.nComments ∧ r2.nOther = r1.nOther ∧ r2.nUpdated = r1.nUpdated ∧
  r2.nUnknown = r1.nUnknown ∧ r2.puts = r1.puts ∧
  (∀ j, j ≠ f → r2.raw j = r1.raw j) ∧ r2.nErrors = r1.nErrors + k

/-! # Theorems -/

/-! ## Slots -/

theorem length_slotUpdate (l : List Data) (i : Nat) (f : Data → Data) :
    (slotUpdate l i f).length = l.length := by
  unfold slotUpdate
  split <;> simp

theorem getD_slotUpdate (l : List Data) (i j : Nat) (f : Data → Data) :
    (slotUpdate l i f).getD j default =
      if j = i ∧ i < l.length then f (l.getD i default) else l.getD j default := by
  unfold slotUpdate
  by_cases hi : i < l.length
  · have h : l[i]? = some l[i] := List.getElem?_eq_getElem hi
    rw [h]
    by_cases hj : j = i
    · subst hj
      simp [hi, List.getD_eq_getElem?_getD, List.getElem?_set]
    · simp [hj, List.getD_eq_getElem?_getD, List.getElem?_set, Ne.symm hj]
  · have h : l[i]? = none := List.getElem?_eq_none (by omega)
    rw [h]
    simp [hi]

theorem running_lt_length (l : List Data) (i : Nat) (h : (l.getD i default).running = true) :
    i < l.length := by
  by_contra hc
  have : l.getD i default = default := by
    simp [List.getD_eq_getElem?_getD, List.getElem?_eq_none (Nat.le_of_not_lt hc)]
  rw [this] at h
  exact absurd h (by decide)

theorem writeFunction_data (idx : Nat) (bytes : String) (s : Globals) :
    (writeFunction idx bytes s).g_fetchData =
      slotUpdate s.g_fetchData idx (fun d => { d with content := "" }) := by
  unfold writeFunction slotUpdate
  split <;> simp_all

theorem writeFunction_cm (idx : Nat) (bytes : String) (s : Globals) :
    (writeFunction idx bytes s).g_cm = s.g_cm := by
  unfold writeFunction
  split <;> rfl

theorem writeFunction_queue (idx : Nat) (bytes : String) (s : Globals) :
    (writeFunction idx bytes s).g_fetchQueue = s.g_fetchQueue := by
  unfold writeFunction
  split <;> rfl

theorem writeFunction_slot (idx : Nat) (bytes : String) (s : Globals) (i : Nat) :
    ((writeFunction idx bytes s).slot i).running = (s.slot i).running ∧
    ((writeFunction idx bytes s).slot i).uri = (s.slot i).uri := by
  unfold Globals.slot
  rw [writeFunction_data, getD_slotUpdate]
  split
  · next h => obtain ⟨rfl, _⟩ := h; exact ⟨rfl, rfl⟩
  · exact ⟨rfl, rfl⟩

theorem writeFunction_cache (idx : Nat) (bytes : String) (s : Globals) (u : String)
    (h : ((writeFunction idx bytes s).g_fetchCache u).isSome) :
    (s.g_fetchCache u).isSome ∨ u ∈ slotURI s idx := by
  unfold writeFunction at h
  unfold slotURI
  split at h
  · exact Or.inl h
  · next d hd =>
    simp only [cacheSet] at h
    by_cases hu : u = d.uri
    · right; simp [hd, hu]
    · left; simpa [hu] using h

/-! ## The free-slot scan -/

theorem scanIdle_spec (slots : List Data) :
    ∀ fuel idx, idx + fuel = slots.length →
      idx ≤ scanIdle slots fuel idx ∧ scanIdle slots fuel idx ≤ slots.length ∧
      (∀ j, idx ≤ j → j < scanIdle slots fuel idx → (slots.getD j default).running = true) ∧
      (scanIdle slots fuel idx < slots.length →
        (slots.getD (scanIdle slots fuel idx) default).running = false) := by
  intro fuel
  induction fuel with
  | zero =>
    intro idx h
    simp only [scanIdle]
    refine ⟨le_refl _, by omega, ?_, ?_⟩
    · intro j h1 h2; omega
    · intro h1; omega
  | succ n ih =>
    intro idx h
    simp only [scanIdle]
    by_cases hr : (slots.getD idx default).running = true
    · rw [if_pos hr]
      by_cases he : idx + 1 = slots.length
      · rw [if_pos he]
        refine ⟨by omega, by omega, ?_, ?_⟩
        · intro j h1 h2
          have : j = idx := by omega
          rw [this]; exact hr
        · intro h1; omega
      · rw [if_neg he]
        obtain ⟨a, b, c, d⟩ := ih (idx + 1) (by omega)
        refine ⟨by omega, b, ?_, d⟩
        intro j h1 h2
        by_cases hj : j = idx
        · rw [hj]; exact hr
        · exact c j (by omega) h2
    · rw [if_neg hr]
      refine ⟨le_refl _, by omega, ?_, ?_⟩
      · intro j h1 h2; omega
      · intro _; simpa using hr

/-- The scan as `updateRequests_impl` runs it: from index 0 over the whole array. -/
theorem scanIdle_full (slots : List Data) :
    scanIdle slots slots.length 0 ≤ slots.length ∧
    (∀ j, j < scanIdle slots slots.length 0 → (slots.getD j default).running = true) ∧
    (scanIdle slots slots.length 0 < slots.length →
      (slots.getD (scanIdle slots slots.length 0) default).running = false) := by
  obtain ⟨_, b, c, d⟩ := scanIdle_spec slots slots.length 0 (by omega)
  exact ⟨b, fun j hj => c j (Nat.zero_le _) hj, d⟩

/-! ## Messages and dispatch -/

theorem handleMsg_length (s : Globals) (m : CURLMsg) :
    (handleMsg s m).g_fetchData.length = s.g_fetchData.length := by
  cases m <;> simp [handleMsg, length_slotUpdate]

theorem handleMsg_cache (s : Globals) (m : CURLMsg) :
    (handleMsg s m).g_fetchCache = s.g_fetchCache := by
  cases m <;> rfl

theorem handleMsg_queue (s : Globals) (m : CURLMsg) :
    (handleMsg s m).g_fetchQueue = s.g_fetchQueue := by
  cases m <;> rfl

theorem handleMsg_slot (s : Globals) (m : CURLMsg) (i : Nat) (h : m ≠ .DONE i) :
    (handleMsg s m).slot i = s.slot i := by
  cases m with
  | OTHER c => rfl
  | DONE idx =>
    have hne : i ≠ idx := fun e => h (by rw [e])
    simp only [handleMsg, Globals.slot]
    rw [getD_slotUpdate, if_neg (fun hc => hne hc.1)]

theorem handleMsg_content (s : Globals) (m : CURLMsg) (i : Nat) :
    ((handleMsg s m).slot i).content = (s.slot i).content ∧
    ((handleMsg s m).slot i).uri = (s.slot i).uri := by
  cases m with
  | OTHER c => exact ⟨rfl, rfl⟩
  | DONE idx =>
    simp only [handleMsg, Globals.slot, getD_slotUpdate]
    split
    · next h => obtain ⟨rfl, _⟩ := h; exact ⟨rfl, rfl⟩
    · exact ⟨rfl, rfl⟩

theorem foldl_handleMsg_length (msgs : List CURLMsg) (s : Globals) :
    (msgs.foldl handleMsg s).g_fetchData.length = s.g_fetchData.length := by
  induction msgs generalizing s with
  | nil => rfl
  | cons m ms ih => simp [List.foldl, ih, handleMsg_length]

theorem foldl_handleMsg_cache (msgs : List CURLMsg) (s : Globals) :
    (msgs.foldl handleMsg s).g_fetchCache = s.g_fetchCache := by
  induction msgs generalizing s with
  | nil => rfl
  | cons m ms ih => simp [List.foldl, ih, handleMsg_cache]

theorem foldl_handleMsg_queue (msgs : List CURLMsg) (s : Globals) :
    (msgs.foldl handleMsg s).g_fetchQueue = s.g_fetchQueue := by
  induction msgs generalizing s with
  | nil => rfl
  | cons m ms ih => simp [List.foldl, ih, handleMsg_queue]

theorem foldl_handleMsg_slot (msgs : List CURLMsg) (s : Globals) (i : Nat)
    (h : CURLMsg.DONE i ∉ msgs) : (msgs.foldl handleMsg s).slot i = s.slot i := by
  induction msgs generalizing s with
  | nil => rfl
  | cons m ms ih =>
    simp only [List.mem_cons, not_or] at h
    simp only [List.foldl]
    rw [ih _ h.2, handleMsg_slot s m i (fun e => h.1 e.symm)]

theorem foldl_write_length (chunks : List (Nat × String)) (s : Globals) :
    (chunks.foldl (fun t c => writeFunction c.1 c.2 t) s).g_fetchData.length =
      s.g_fetchData.length := by
  induction chunks generalizing s with
  | nil => rfl
  | cons c cs ih => simp [List.foldl, ih, writeFunction_data, length_slotUpdate]

theorem foldl_write_queue (chunks : List (Nat × String)) (s : Globals) :
    (chunks.foldl (fun t c => writeFunction c.1 c.2 t) s).g_fetchQueue = s.g_fetchQueue := by
  induction chunks generalizing s with
  | nil => rfl
  | cons c cs ih => simp [List.foldl, ih, writeFunction_queue]

theorem foldl_write_slot (chunks : List (Nat × String)) (s : Globals) (i : Nat) :
    ((chunks.foldl (fun t c => writeFunction c.1 c.2 t) s).slot i).running = (s.slot i).running ∧
    ((chunks.foldl (fun t c => writeFunction c.1 c.2 t) s).slot i).uri = (s.slot i).uri := by
  induction chunks generalizing s with
  | nil => exact ⟨rfl, rfl⟩
  | cons c cs ih =>
    simp only [List.foldl]
    obtain ⟨a, b⟩ := ih (writeFunction c.1 c.2 s)
    obtain ⟨a1, b1⟩ := writeFunction_slot c.1 c.2 s i
    exact ⟨a.trans a1, b.trans b1⟩

theorem foldl_write_cache (chunks : List (Nat × String)) (s : Globals) (u : String)
    (h : ((chunks.foldl (fun t c => writeFunction c.1 c.2 t) s).g_fetchCache u).isSome) :
    (s.g_fetchCache u).isSome ∨ u ∈ chunkURIs chunks s := by
  induction chunks generalizing s with
  | nil => exact Or.inl h
  | cons c cs ih =>
    simp only [List.foldl] at h
    simp only [chunkURIs, List.mem_append]
    rcases ih _ h with h1 | h1
    · rcases writeFunction_cache c.1 c.2 s u h1 with h2 | h2
      · exact Or.inl h2
      · exact Or.inr (Or.inl h2)
    · exact Or.inr (Or.inr h1)

/-- The state after one iteration of the dispatch loop that binds `uri` to `idx`. -/
theorem dispatch_bind_slot (s : Globals) (idx i : Nat) (uri : String) (rest : List String)
    (hidx : idx < s.g_fetchData.length) :
    (addTransfer idx
        { s with
          g_fetchQueue := rest
          g_nFetches := wrapInt32 (s.g_nFetches + 1)
          g_fetchData := slotUpdate s.g_fetchData idx
            (fun data => { data with running := true, uri := uri }) }).slot i =
      if i = idx then { s.slot idx with running := true, uri := uri, eh := true } else s.slot i := by
  simp only [addTransfer, Globals.slot, getD_slotUpdate, length_slotUpdate]
  by_cases h : i = idx
  · subst h; simp [hidx]
  · simp [h]

theorem dispatchLoop_cache (q : List String) (alive : Int) (s : Globals) :
    (dispatchLoop q alive s).1.g_fetchCache = s.g_fetchCache := by
  induction q generalizing alive s with
  | nil => rfl
  | cons uri rest ih =>
    simp only [dispatchLoop]
    split
    · split
      · rfl
      · rw [ih]; rfl
    · rfl

theorem dispatchLoop_length (q : List String) (alive : Int) (s : Globals) :
    (dispatchLoop q alive s).1.g_fetchData.length = s.g_fetchData.length := by
  induction q generalizing alive s with
  | nil => rfl
  | cons uri rest ih =>
    simp only [dispatchLoop]
    split
    · split
      · rfl
      · rw [ih]; simp [addTransfer, length_slotUpdate]
    · rfl

/-! ## The admission invariant -/

theorem admission_init : Admission Globals.init := by
  refine ⟨by simp [Globals.init], by simp [Globals.init], ?_⟩
  intro i hi
  simp [Globals.init] at hi

theorem admission_write (idx : Nat) (bytes : String) (s : Globals) (h : Admission s) :
    Admission (writeFunction idx bytes s) := by
  obtain ⟨a, b, c⟩ := h
  refine ⟨by rw [writeFunction_data, length_slotUpdate]; exact a,
    by rw [writeFunction_cm]; exact b, ?_⟩
  intro i hi
  rw [writeFunction_cm] at hi
  rw [(writeFunction_slot idx bytes s i).1]
  exact c i hi

theorem admission_handleMsg (s : Globals) (m : CURLMsg) (h : Admission s) :
    Admission (handleMsg s m) := by
  obtain ⟨a, b, c⟩ := h
  cases m with
  | OTHER code => exact ⟨a, b, c⟩
  | DONE idx =>
    refine ⟨by rw [handleMsg_length]; exact a, b.erase idx, ?_⟩
    intro i hi
    have hi2 : i ≠ idx ∧ i ∈ s.g_cm := (List.Nodup.mem_erase_iff b).1 hi
    rw [handleMsg_slot s (.DONE idx) i (fun e => hi2.1 (by injection e with e; exact e.symm))]
    exact c i hi2.2

theorem admission_dispatchLoop (q : List String) (alive : Int) (s : Globals)
    (h : Admission s) : Admission (dispatchLoop q alive s).1 := by
  induction q generalizing alive s with
  | nil => exact h
  | cons uri rest ih =>
    simp only [dispatchLoop]
    split
    · split
      · exact h
      · next hne =>
        apply ih
        obtain ⟨a, b, c⟩ := h
        obtain ⟨s1, _, s3⟩ := scanIdle_full s.g_fetchData
        have hlt : scanIdle s.g_fetchData s.g_fetchData.length 0 < s.g_fetchData.length :=
          lt_of_le_of_ne s1 hne
        have hidle := s3 hlt
        refine ⟨by simp [addTransfer, length_slotUpdate]; exact a, ?_, ?_⟩
        · show (s.g_cm ++ [_]).Nodup
          rw [List.nodup_append]
          refine ⟨b, List.nodup_singleton _, ?_⟩
          intro x hx hx2
          rw [List.mem_singleton] at hx2
          have := c x hx
          rw [hx2] at this
          unfold Globals.slot at this
          rw [hidle] at this
          exact absurd this (by decide)
        · intro i hi
          rw [dispatch_bind_slot s _ i uri rest hlt]
          split
          · rfl
          · have hi2 : i ∈ s.g_cm ++ [scanIdle s.g_fetchData s.g_fetchData.length 0] := hi
            rw [List.mem_append, List.mem_singleton] at hi2
            rcases hi2 with h1 | h1
            · exact c i h1
            · contradiction
    · exact h

theorem admission_step (s : Globals) (op : Op) (h : Admission s) : Admission (op.step s) := by
  cases op with
  | enqueue uri => exact h
  | read uri =>
    simp only [Op.step, getJSONForURI_impl]
    split
    · exact h
    · exact h
  | write idx bytes => exact admission_write idx bytes s h
  | pump inp =>
    simp only [Op.step, updateRequests_impl, updateRequests_run, beforeDispatch]
    apply admission_dispatchLoop
    have h1 : Admission (inp.msgs.foldl handleMsg s) := by
      generalize inp.msgs = msgs
      induction msgs generalizing s with
      | nil => exact h
      | cons m ms ih => exact ih _ (admission_handleMsg s m h)
    generalize inp.msgs.foldl handleMsg s = t at h1
    generalize inp.chunks = cs
    induction cs generalizing t with
    | nil => exact h1
    | cons c cs ih => exact ih _ (admission_write c.1 c.2 t h1)

theorem admission_run (ops : List Op) (s : Globals) (h : Admission s) :
    Admission (run ops s) := by
  induction ops generalizing s with
  | nil => exact h
  | cons op ops ih => exact ih _ (admission_step s op h)

theorem nodup_length_le (l : List Nat) (n : Nat) (hn : l.Nodup) (hb : ∀ i ∈ l, i < n) :
    l.length ≤ n := by
  have h1 : l.toFinset ⊆ Finset.range n := by
    intro x hx
    rw [List.mem_toFinset] at hx
    exact Finset.mem_range.2 (hb x hx)
  have h2 := Finset.card_le_card h1
  rw [List.toFinset_card_of_nodup hn, Finset.card_range] at h2
  exact h2

/-- C4. Admission bound: in every state reached from the initial state by enqueue,
pump (with any completion messages, callbacks and running count reported by the
transport), write-callback and cache-read steps, at most `MAX_PARALLEL` = 64 slots are
busy, and at most 64 transfers are added to the multi handle and not yet reported
complete; every such transfer sits in a busy slot. -/
theorem admission_bound (ops : List Op) :
    MAX_PARALLEL = 64 ∧
    busyCount (run ops Globals.init) ≤ MAX_PARALLEL ∧
    (run ops Globals.init).g_cm.length ≤ MAX_PARALLEL ∧
    (run ops Globals.init).g_cm.Nodup ∧
    ∀ i ∈ (run ops Globals.init).g_cm, ((run ops Globals.init).slot i).running = true := by
  obtain ⟨a, b, c⟩ := admission_run ops Globals.init admission_init
  refine ⟨rfl, ?_, ?_, b, c⟩
  · unfold busyCount
    rw [← a]
    exact List.countP_le_length _
  · apply nodup_length_le _ _ b
    intro i hi
    rw [← a]
    exact running_lt_length _ _ (c i hi)

/-! ## Dispatch never touches a busy slot -/

theorem dispatchLoop_keeps (q : List String) (alive : Int) (s : Globals) (i : Nat)
    (h : (s.slot i).running = true) :
    ((dispatchLoop q alive s).1.slot i).running = true ∧
    ((dispatchLoop q alive s).1.slot i).uri = (s.slot i).uri := by
  induction q generalizing alive s with
  | nil => exact ⟨h, rfl⟩
  | cons uri rest ih =>
    simp only [dispatchLoop]
    split
    · split
      · exact ⟨h, rfl⟩
      · next hne =>
        obtain ⟨s1, _, s3⟩ := scanIdle_full s.g_fetchData
        have hlt : scanIdle s.g_fetchData s.g_fetchData.length 0 < s.g_fetchData.length :=
          lt_of_le_of_ne s1 hne
        have hidle := s3 hlt
        have hi : i ≠ scanIdle s.g_fetchData s.g_fetchData.length 0 := by
          intro e
          unfold Globals.slot at h
          rw [e, hidle] at h
          exact absurd h (by decide)
        have hs := dispatch_bind_slot s _ i uri rest hlt
        rw [if_neg hi] at hs
        obtain ⟨a, b⟩ := ih (alive + 1) _ (by rw [hs]; exact h)
        exact ⟨a, by rw [b, hs]⟩
    · exact ⟨h, rfl⟩

theorem dispatchLoop_log (q : List String) (alive : Int) (s : Globals) :
    (∀ b ∈ (dispatchLoop q alive s).2,
      b.1 < s.g_fetchData.length ∧ (s.slot b.1).running = false ∧
      ((dispatchLoop q alive s).1.slot b.1).running = true ∧
      ((dispatchLoop q alive s).1.slot b.1).uri = b.2) ∧
    ((dispatchLoop q alive s).2.map Prod.fst).Nodup := by
  induction q generalizing alive s with
  | nil => simp [dispatchLoop]
  | cons uri rest ih =>
    simp only [dispatchLoop]
    split
    · split
      · simp
      · next hne =>
        obtain ⟨s1, _, s3⟩ := scanIdle_full s.g_fetchData
        have hlt : scanIdle s.g_fetchData s.g_fetchData.length 0 < s.g_fetchData.length :=
          lt_of_le_of_ne s1 hne
        have hidle := s3 hlt
        have hs := dispatch_bind_slot s (scanIdle s.g_fetchData s.g_fetchData.length 0)
        generalize scanIdle s.g_fetchData s.g_fetchData.length 0 = idx at *
        obtain ⟨a, b⟩ := ih (alive + 1) (addTransfer idx
          { s with
            g_fetchQueue := rest
            g_nFetches := wrapInt32 (s.g_nFetches + 1)
            g_fetchData := slotUpdate s.g_fetchData idx
              (fun data => { data with running := true, uri := uri }) })
        have hlen : (addTransfer idx
          { s with
            g_fetchQueue := rest
            g_nFetches := wrapInt32 (s.g_nFetches + 1)
            g_fetchData := slotUpdate s.g_fetchData idx
              (fun data => { data with running := true, uri := uri }) }).g_fetchData.length
            = s.g_fetchData.length := by simp [addTransfer, length_slotUpdate]
        have hne2 : ∀ b ∈ (dispatchLoop rest (alive + 1) (addTransfer idx
          { s with
            g_fetchQueue := rest
            g_nFetches := wrapInt32 (s.g_nFetches + 1)
            g_fetchData := slotUpdate s.g_fetchData idx
              (fun data => { data with running := true, uri := uri }) })).2, b.1 ≠ idx := by
          intro b hb e
          have := (a b hb).2.1
          rw [hs b.1 uri rest hlt, if_pos e] at this
          simp at this
        refine ⟨?_, ?_⟩
        · intro b hb
          rcases List.mem_cons.1 hb with h1 | h1
          · subst h1
            have hk := dispatchLoop_keeps rest (alive + 1) (addTransfer idx
              { s with
                g_fetchQueue := rest
                g_nFetches := wrapInt32 (s.g_nFetches + 1)
                g_fetchData := slotUpdate s.g_fetchData idx
                  (fun data => { data with running := true, uri := uri }) }) idx
              (by rw [hs idx uri rest hlt, if_pos rfl])
            refine ⟨hlt, hidle, hk.1, ?_⟩
            rw [hk.2, hs idx uri rest hlt, if_pos rfl]
          · obtain ⟨c1, c2, c3, c4⟩ := a b h1
            refine ⟨by rw [← hlen]; exact c1, ?_, c3, c4⟩
            rw [hs b.1 uri rest hlt, if_neg (hne2 b h1)] at c2
            exact c2
        · rw [List.map_cons, List.nodup_cons]
          refine ⟨?_, b⟩
          intro hmem
          obtain ⟨b0, hb0, e⟩ := List.mem_map.1 hmem
          exact hne2 b0 hb0 e
    · simp

theorem beforeDispatch_slot (inp : PumpInput) (s : Globals) (i : Nat)
    (h : CURLMsg.DONE i ∉ inp.msgs) :
    ((beforeDispatch inp s).slot i).running = (s.slot i).running ∧
    ((beforeDispatch inp s).slot i).uri = (s.slot i).uri := by
  unfold beforeDispatch
  obtain ⟨a, b⟩ := foldl_write_slot inp.chunks (inp.msgs.foldl handleMsg s) i
  rw [foldl_handleMsg_slot inp.msgs s i h] at a b
  exact ⟨a, b⟩

/-- C5. A pump never rebinds a busy slot: a slot that is busy before
`updateRequests_impl` and for which this call handles no `CURLMSG_DONE` is still busy
afterwards with the same URI; every `addTransfer(idx, uri)` of the call goes to a slot
of the array whose `running` flag was false when the dispatch loop started, the slot
ends the call busy with exactly that URI, and no slot index is bound twice in one call. -/
theorem pump_never_rebinds_busy_slot (inp : PumpInput) (s : Globals) (i : Nat)
    (hbusy : (s.slot i).running = true) (hnot : CURLMsg.DONE i ∉ inp.msgs) :
    (((updateRequests_impl inp s).slot i).running = true ∧
      ((updateRequests_impl inp s).slot i).uri = (s.slot i).uri) ∧
    (∀ b ∈ (updateRequests_run inp s).2,
      b.1 < s.g_fetchData.length ∧
      ((beforeDispatch inp s).slot b.1).running = false ∧
      ((updateRequests_impl inp s).slot b.1).running = true ∧
      ((updateRequests_impl inp s).slot b.1).uri = b.2 ∧ b.1 ≠ i) ∧
    ((updateRequests_run inp s).2.map Prod.fst).Nodup := by
  obtain ⟨b1, b2⟩ := beforeDispatch_slot inp s i hnot
  obtain ⟨l1, l2⟩ := dispatchLoop_log (beforeDispatch inp s).g_fetchQueue inp.still_alive
    (beforeDispatch inp s)
  obtain ⟨k1, k2⟩ := dispatchLoop_keeps (beforeDispatch inp s).g_fetchQueue inp.still_alive
    (beforeDispatch inp s) i (by rw [b1]; exact hbusy)
  have hlen : (beforeDispatch inp s).g_fetchData.length = s.g_fetchData.length := by
    unfold beforeDispatch
    rw [foldl_write_length, foldl_handleMsg_length]
  refine ⟨⟨k1, by rw [← b2]; exact k2⟩, ?_, l2⟩
  · intro b hb
    obtain ⟨c1, c2, c3, c4⟩ := l1 b hb
    refine ⟨by rw [← hlen]; exact c1, c2, c3, c4, ?_⟩
    intro e
    rw [e, b1, hbusy] at c2
    exact absurd c2 (by decide)

/-! ## The cache and the private buffers -/

theorem step_cache (op : Op) (s : Globals) (u : String)
    (h : ((op.step s).g_fetchCache u).isSome) :
    (s.g_fetchCache u).isSome ∨ u ∈ op.written s := by
  cases op with
  | enqueue uri => exact Or.inl h
  | read uri =>
    left
    simp only [Op.step, getJSONForURI_impl] at h
    split at h
    · simp only [cacheErase] at h
      by_cases hu : u = uri
      · simp [hu] at h
      · simpa [hu] using h
    · exact h
  | write idx bytes => exact writeFunction_cache idx bytes s u h
  | pump inp =>
    simp only [Op.step, updateRequests_impl, updateRequests_run, beforeDispatch,
      dispatchLoop_cache] at h
    rcases foldl_write_cache _ _ u h with h1 | h1
    · rw [foldl_handleMsg_cache] at h1
      exact Or.inl h1
    · exact Or.inr h1

theorem run_cache (ops : List Op) (s : Globals) (u : String)
    (h : ((run ops s).g_fetchCache u).isSome) :
    (s.g_fetchCache u).isSome ∨ u ∈ written ops s := by
  induction ops generalizing s with
  | nil => exact Or.inl h
  | cons op ops ih =>
    simp only [written, List.mem_append]
    rcases ih (op.step s) h with h1 | h1
    · rcases step_cache op s u h1 with h2 | h2
      · exact Or.inl h2
      · exact Or.inr (Or.inl h2)
    · exact Or.inr (Or.inr h1)

theorem buffersEmpty_write (idx : Nat) (bytes : String) (s : Globals) (h : BuffersEmpty s) :
    BuffersEmpty (writeFunction idx bytes s) := by
  intro i
  unfold Globals.slot
  rw [writeFunction_data, getD_slotUpdate]
  split
  · rfl
  · exact h i

theorem buffersEmpty_dispatchLoop (q : List String) (alive : Int) (s : Globals)
    (h : BuffersEmpty s) : BuffersEmpty (dispatchLoop q alive s).1 := by
  induction q generalizing alive s with
  | nil => exact h
  | cons uri rest ih =>
    simp only [dispatchLoop]
    split
    · split
      · exact h
      · next hne =>
        apply ih
        have hlt : scanIdle s.g_fetchData s.g_fetchData.length 0 < s.g_fetchData.length :=
          lt_of_le_of_ne (scanIdle_full s.g_fetchData).1 hne
        intro i
        rw [dispatch_bind_slot s _ i uri rest hlt]
        split
        · exact h _
        · exact h i
    · exact h

theorem buffersEmpty_step (op : Op) (s : Globals) (h : BuffersEmpty s) :
    BuffersEmpty (op.step s) := by
  cases op with
  | enqueue uri => exact h
  | read uri =>
    simp only [Op.step, getJSONForURI_impl]
    split
    · exact h
    · exact h
  | write idx bytes => exact buffersEmpty_write idx bytes s h
  | pump inp =>
    simp only [Op.step, updateRequests_impl, updateRequests_run, beforeDispatch]
    apply buffersEmpty_dispatchLoop
    have h1 : BuffersEmpty (inp.msgs.foldl handleMsg s) := by
      generalize inp.msgs = msgs
      induction msgs generalizing s with
      | nil => exact h
      | cons m ms ih =>
        apply ih
        intro i
        rw [(handleMsg_content s m i).1]
        exact h i
    generalize inp.msgs.foldl handleMsg s = t at h1
    generalize inp.chunks = cs
    induction cs generalizing t with
    | nil => exact h1
    | cons c cs ih => exact ih _ (buffersEmpty_write c.1 c.2 t h1)

theorem buffersEmpty_run (ops : List Op) (s : Globals) (h : BuffersEmpty s) :
    BuffersEmpty (run ops s) := by
  induction ops generalizing s with
  | nil => exact h
  | cons op ops ih => exact ih _ (buffersEmpty_step op s h)

theorem buffersEmpty_init : BuffersEmpty Globals.init := by
  intro i
  have hd : ∀ d ∈ Globals.init.g_fetchData, d.content = "" := by
    intro d hd
    simp only [Globals.init] at hd
    rw [List.eq_of_mem_replicate hd]
  unfold Globals.slot
  rw [List.getD_eq_getElem?_getD]
  cases hg : Globals.init.g_fetchData[i]? with
  | none => rfl
  | some d => exact hd d (List.getElem?_mem hg)

/-- C2, counterexample. After `enqueue u; pump; pump` where the second pump delivers
one chunk to slot 0 and no completion message, the cache already holds the chunk under
`u`, although no transfer has been reported complete, slot 0 is still running `u`, and
its private buffer is empty. -/
theorem cache_entry_before_completion :
    (run chunkOps Globals.init).g_fetchCache (getItemURI 1) = some "ab" ∧
    completed chunkOps Globals.init = [] ∧
    ((run chunkOps Globals.init).slot 0).running = true ∧
    ((run chunkOps Globals.init).slot 0).uri = getItemURI 1 ∧
    ((run chunkOps Globals.init).slot 0).content = "" := by
  decide

/-- C2, amended. In every state reached from the initial state by enqueue, pump,
write-callback and cache-read steps, a URI is present in the cache only if a write
callback has run on a slot bound to that URI. -/
theorem cache_entry_only_after_write (ops : List Op) (u : String)
    (h : ((run ops Globals.init).g_fetchCache u).isSome = true) :
    u ∈ written ops Globals.init := by
  rcases run_cache ops _ u h with h1 | h1
  · simp [Globals.init] at h1
  · exact h1

/-- C2, amended, on `chunkOps`: the entry of item 1 is present, and a write callback
has run on slot 0 while it was bound to the URI of item 1. -/
theorem cache_entry_only_after_write_witness :
    ((run chunkOps Globals.init).g_fetchCache (getItemURI 1)).isSome = true ∧
    getItemURI 1 ∈ written chunkOps Globals.init :=
  ⟨by decide, cache_entry_only_after_write chunkOps (getItemURI 1) (by decide)⟩

/-- C3, the code at the failing input. A transfer of `u` in slot 0 whose body arrives
as the chunks "ab", "cd" (no cache read in between) and is then reported complete
leaves the slot free and the cache entry of `u` equal to the last chunk "cd", not to
the whole body "abcd"; until the completion is read the slot was running `u`. -/
theorem cache_keeps_last_chunk_only :
    (run twoChunkOps Globals.init).g_fetchCache (getItemURI 1) = some "cd" ∧
    (run twoChunkOps Globals.init).g_fetchCache (getItemURI 1) ≠ some ("ab" ++ "cd") ∧
    ((run twoChunkOps Globals.init).slot 0).running = false ∧
    ((run (twoChunkOps.take 4) Globals.init).slot 0).running = true ∧
    ((run (twoChunkOps.take 4) Globals.init).slot 0).uri = getItemURI 1 ∧
    (run (twoChunkOps.take 3) Globals.init).g_fetchCache (getItemURI 1) = some "ab" := by
  decide

/-- C6, counterexample. Item 1 runs in slot 0 and its first chunk "ab" is in the cache;
a read returns "ab"; the next pump delivers the chunk "cd" to slot 0 and handles no
completion message; the second read returns "cd", not the empty string, although no
transfer has been reported complete between the two reads. -/
theorem second_read_finds_later_chunk :
    (getJSONForURI_impl (getItemURI 1) (run chunkOps Globals.init)).1 = "ab" ∧
    completed laterChunkOps (getJSONForURI_impl (getItemURI 1) (run chunkOps Globals.init)).2
      = [] ∧
    (getJSONForURI_impl (getItemURI 1)
      (run laterChunkOps (getJSONForURI_impl (getItemURI 1) (run chunkOps Globals.init)).2)).1
      = "cd" := by
  decide

/-- C6, amended. Consume-once: `getJSONForURI_impl(u)` returns the stored body (the
empty string when there is none), leaves no entry for `u`, leaves every other entry
and every other global unchanged; a second read of `u` right after it returns the
empty string, and so does a second read after any operations in between during which
no write callback fires on a slot bound to `u`. -/
theorem cache_read_consumes (s : Globals) (u : String) :
    (getJSONForURI_impl u s).1 = (s.g_fetchCache u).getD "" ∧
    (getJSONForURI_impl u s).2.g_fetchCache u = none ∧
    (∀ v, v ≠ u → (getJSONForURI_impl u s).2.g_fetchCache v = s.g_fetchCache v) ∧
    ((getJSONForURI_impl u s).2.g_fetchQueue = s.g_fetchQueue ∧
      (getJSONForURI_impl u s).2.g_fetchData = s.g_fetchData ∧
      (getJSONForURI_impl u s).2.g_cm = s.g_cm ∧
      (getJSONForURI_impl u s).2.g_nFetches = s.g_nFetches ∧
      (getJSONForURI_impl u s).2.g_totalBytesDownloaded = s.g_totalBytesDownloaded) ∧
    (getJSONForURI_impl u (getJSONForURI_impl u s).2).1 = "" ∧
    (∀ ops, u ∉ written ops (getJSONForURI_impl u s).2 →
      (getJSONForURI_impl u (run ops (getJSONForURI_impl u s).2)).1 = "") := by
  have hnone : (getJSONForURI_impl u s).2.g_fetchCache u = none := by
    unfold getJSONForURI_impl
    cases h : s.g_fetchCache u with
    | none => simpa using h
    | some b => simp [cacheErase]
  have hread : ∀ t : Globals, t.g_fetchCache u = none → (getJSONForURI_impl u t).1 = "" := by
    intro t ht
    simp [getJSONForURI_impl, ht]
  refine ⟨?_, hnone, ?_, ?_, hread _ hnone, ?_⟩
  · unfold getJSONForURI_impl
    cases h : s.g_fetchCache u <;> simp
  · intro v hv
    unfold getJSONForURI_impl
    cases h : s.g_fetchCache u <;> simp [cacheErase, hv]
  · unfold getJSONForURI_impl
    cases h : s.g_fetchCache u <;> simp
  · intro ops hops
    apply hread
    cases hc : (run ops (getJSONForURI_impl u s).2).g_fetchCache u with
    | none => rfl
    | some b =>
      rcases run_cache ops _ u (by rw [hc]; rfl) with h1 | h1
      · rw [hnone] at h1; simp at h1
      · exact absurd h1 hops

/-- C6, amended, at a concrete state: with the chunk "ab" of item 1 in the cache, the
first read returns "ab" and the second finds nothing. -/
theorem cache_read_consumes_witness :
    (getJSONForURI_impl (getItemURI 1) (run chunkOps Globals.init)).1 = "ab" ∧
    (getJSONForURI_impl (getItemURI 1)
      (getJSONForURI_impl (getItemURI 1) (run chunkOps Globals.init)).2).1 = "" := by
  have h := cache_read_consumes (run chunkOps Globals.init) (getItemURI 1)
  refine ⟨?_, h.2.2.2.2.1⟩
  rw [h.1]
  decide

/-! ## `HN::same` and the comparison of the poller -/

theorem sameLoop_iff (a b : List Int) :
    ∀ k i, sameLoop a b k i = true ↔ ∀ j, j < k → a.getD (i + j) 0 = b.getD (i + j) 0 := by
  intro k
  induction k with
  | zero => intro i; simp [sameLoop]
  | succ n ih =>
    intro i
    simp only [sameLoop]
    by_cases h : a.getD i 0 = b.getD i 0
    · simp only [ne_eq, h, not_true_eq_false, if_false]
      rw [ih (i + 1)]
      constructor
      · intro hh j hj
        cases j with
        | zero => simpa using h
        | succ m =>
          have := hh m (by omega)
          rw [show i + (m + 1) = i + 1 + m by omega]
          exact this
      · intro hh j hj
        have := hh (j + 1) (by omega)
        rw [show i + (j + 1) = i + 1 + j by omega] at this
        exact this
    · simp only [ne_eq, h, not_false_eq_true, if_true]
      constructor
      · intro hh; cases hh
      · intro hh
        exact absurd (by simpa using hh 0 (by omega)) h

theorem toInt32_of_lt (n : Nat) (h : n < 2 ^ 31) : toInt32 n = n := by
  unfold toInt32
  omega

theorem same_iff (a b : List Int) (h : a.length < 2 ^ 31) : same a b = true ↔ a = b := by
  unfold same
  constructor
  · intro hs
    by_cases hl : a.length = b.length
    · simp only [ne_eq, hl, not_true_eq_false, if_false] at hs
      rw [← hl, toInt32_of_lt _ h, Int.toNat_ofNat, sameLoop_iff] at hs
      apply List.ext_getElem hl
      intro n h1 h2
      have := hs n h1
      simpa [List.getD_eq_getElem?_getD, List.getElem?_eq_getElem h1,
        List.getElem?_eq_getElem h2] using this
    · simp [hl] at hs
  · intro e
    subst e
    simp only [ne_eq, not_true_eq_false, if_false]
    rw [sameLoop_iff]
    intro j _
    rfl

/-- C7. Round suppression: for id lists whose length fits the `int` the loop of
`HN::same` counts in, `same(cur, prev)` is true exactly when the lists are identical;
`main` starts a round iff it is false, and then `idsOld` becomes `cur` (otherwise it
stays `prev`).  With `prev = [1,2,3]`: no round for `[1,2,3]`, a round for `[3,2,1]`
and for `[1,2,3,4]`. -/
theorem round_suppression (cur prev : List Int) (h : cur.length < 2 ^ 31) :
    (same cur prev = true ↔ cur = prev) ∧
    ((mainCompare cur prev).1 = true ↔ same cur prev = false) ∧
    ((mainCompare cur prev).1 = true ↔ cur ≠ prev) ∧
    ((mainCompare cur prev).1 = true → (mainCompare cur prev).2 = cur) ∧
    ((mainCompare cur prev).1 = false → (mainCompare cur prev).2 = prev) ∧
    mainCompare [1, 2, 3] [1, 2, 3] = (false, [1, 2, 3]) ∧
    mainCompare [3, 2, 1] [1, 2, 3] = (true, [3, 2, 1]) ∧
    mainCompare [1, 2, 3, 4] [1, 2, 3] = (true, [1, 2, 3, 4]) := by
  have hiff := same_iff cur prev h
  refine ⟨hiff, ?_, ?_, ?_, ?_, by decide, by decide, by decide⟩
  · unfold mainCompare
    cases hs : same cur prev <;> simp
  · unfold mainCompare
    cases hs : same cur prev
    · have : cur ≠ prev := fun e => by rw [hiff.2 e] at hs; cases hs
      simpa using this
    · simpa using hiff.1 hs
  · unfold mainCompare
    cases hs : same cur prev <;> simp
  · unfold mainCompare
    cases hs : same cur prev <;> simp

/-- C7 at `cur = [3,2,1]`, `prev = [1,2,3]`: the comparison is false and a round runs. -/
theorem round_suppression_witness :
    ((3 : Nat) < 2 ^ 31) ∧ same [3, 2, 1] [1, 2, 3] = false ∧
    (mainCompare [3, 2, 1] [1, 2, 3]).1 = true := by
  have h := round_suppression [3, 2, 1] [1, 2, 3] (by decide)
  exact ⟨by decide, h.2.1.1 (by decide), by decide⟩

/-! ## `HN::parseComment` -/

/-- C10. Default-field tolerance: `parseComment` is total; a mapping without `kids`
and `time` gives `kids = []` and `time = 0`; `by`, `id`, `parent`, `text` are the same
for any two mappings that agree on those four keys (whatever they hold for `kids` and
`time`); each of `kids`, `parent`, `text`, `time` that is absent or that its
conversion rejects becomes `[]`, `0`, `""`, `0`; and each of the six fields is
determined by the entry of its own key alone. -/
theorem parseComment_defaults (P : Parsers) (data data2 : String → Option String) :
    (data "kids" = none → data "time" = none →
      (parseComment P data).kids = [] ∧ (parseComment P data).time = 0) ∧
    (data2 "by" = data "by" → data2 "id" = data "id" → data2 "parent" = data "parent" →
      data2 "text" = data "text" →
      (parseComment P data2).by_ = (parseComment P data).by_ ∧
      (parseComment P data2).id = (parseComment P data).id ∧
      (parseComment P data2).parent = (parseComment P data).parent ∧
      (parseComment P data2).text = (parseComment P data).text) ∧
    (((data "kids").bind P.parseIntArray = none → (parseComment P data).kids = []) ∧
      ((data "parent").bind P.stoi = none → (parseComment P data).parent = 0) ∧
      (data "text" = none → (parseComment P data).text = "") ∧
      ((data "time").bind P.stoll = none → (parseComment P data).time = 0)) ∧
    ((data2 "kids" = data "kids" → (parseComment P data2).kids = (parseComment P data).kids) ∧
      (data2 "parent" = data "parent" →
        (parseComment P data2).parent = (parseComment P data).parent) ∧
      (data2 "text" = data "text" → (parseComment P data2).text = (parseComment P data).text) ∧
      (data2 "time" = data "time" → (parseComment P data2).time = (parseComment P data).time) ∧
      (data2 "by" = data "by" → (parseComment P data2).by_ = (parseComment P data).by_) ∧
      (data2 "id" = data "id" → (parseComment P data2).id = (parseComment P data).id)) := by
  refine ⟨?_, ?_, ⟨?_, ?_, ?_, ?_⟩, ⟨?_, ?_, ?_, ?_, ?_, ?_⟩⟩
  · intro h1 h2
    simp [parseComment, h1, h2]
  · intro h1 h2 h3 h4
    simp [parseComment, h1, h2, h3, h4]
  · intro h; simp [parseComment, h]
  · intro h; simp [parseComment, h]
  · intro h; simp [parseComment, h]
  · intro h; simp [parseComment, h]
  · intro h; simp [parseComment, h]
  · intro h; simp [parseComment, h]
  · intro h; simp [parseComment, h]
  · intro h; simp [parseComment, h]
  · intro h; simp [parseComment, h]
  · intro h; simp [parseComment, h]

/-- C10 on the mapping of item 100, which has neither `kids` nor `time`. -/
theorem parseComment_defaults_witness :
    (parseComment tableParsers data100).kids = [] ∧
    (parseComment tableParsers data100).time = 0 ∧
    (parseComment tableParsers data100).by_ = "alice" ∧
    (parseComment tableParsers data100).id = 100 ∧
    (parseComment tableParsers data100).parent = 50 ∧
    (parseComment tableParsers data100).text = "hi" := by
  have h := (parseComment_defaults tableParsers data100 data100).1 (by decide) (by decide)
  exact ⟨h.1, h.2, by decide, by decide, by decide, by decide⟩

/-! ## The blocking fetch -/

theorem retryLoop_pumps (env : Nat → PumpInput) (uri : String) :
    ∀ n json w, (retryLoop env uri n json w).2.pumps ≤ w.pumps + n ∧
      ((retryLoop env uri n json w).1 = "" → (retryLoop env uri n json w).2.pumps = w.pumps + n) := by
  intro n
  induction n with
  | zero => intro json w; simp [retryLoop]
  | succ k ih =>
    intro json w
    simp only [retryLoop]
    by_cases hj : json = ""
    · rw [if_pos hj]
      have key := ih (getJSONForURI_impl uri (updateRequests env w).g).1
        { g := (getJSONForURI_impl uri (updateRequests env w).g).2,
          pumps := (updateRequests env w).pumps }
      have hp : (updateRequests env w).pumps = w.pumps + 1 := rfl
      dsimp only at key ⊢
      obtain ⟨a, b⟩ := key
      exact ⟨by omega, fun h => by have := b h; omega⟩
    · rw [if_neg hj]
      dsimp only
      exact ⟨by omega, fun h => absurd h hj⟩

theorem fetchItem_pumps (env : Nat → PumpInput) (id : Int) (w : World) :
    (fetchItem env id w).2.pumps ≤ w.pumps + 10 ∧
    ((fetchItem env id w).1 = "" → (fetchItem env id w).2.pumps = w.pumps + 10) := by
  unfold fetchItem getJSONForURI
  exact retryLoop_pumps env _ 10 _ _

theorem roundStart_pumps (env : Nat → PumpInput) (ids : List Int) (w : World) :
    (roundStart env ids w).pumps = w.pumps + 1 := by
  unfold roundStart updateRequests
  have : ∀ (l : List Int) (v : World),
      (l.foldl (fun v id => requestJSONForURI (getItemURI id) v) v).pumps = v.pumps := by
    intro l
    induction l with
    | nil => intro v; rfl
    | cons x xs ih => intro v; simp only [List.foldl]; rw [ih]; rfl
  simp [this]

/-- C9. Fetch failure: a round over the single id `x` whose block-fetch comes back
empty (no check of the cache, before or after any of the 10 pumps, found a non-empty
body) ends normally with no file written, `nErrors = 1`, `nComments = nUpdated =
nUnknown = 0`, after the 10 pumps of that one fetch (one more pump starts the round). -/
theorem fetch_failure_round (P : Parsers) (env : Nat → PumpInput) (x : Int) (w : World)
    (h : (fetchItem env x (roundStart env [x] w)).1 = "") :
    ∃ r, (round P env [x] w).1 = some r ∧ r.puts = [] ∧ r.nErrors = 1 ∧ r.nComments = 0 ∧
      r.nUpdated = 0 ∧ r.nUnknown = 0 ∧ r.nOther = 0 ∧
      (round P env [x] w).2.pumps ≤ (roundStart env [x] w).pumps + 10 ∧
      (round P env [x] w).2.pumps = w.pumps + 1 + 10 := by
  have hp := fetchItem_pumps env x (roundStart env [x] w)
  have hs := roundStart_pumps env [x] w
  refine ⟨{ raw := mapSet (fun _ => none) x "", nErrors := 1 }, ?_, rfl, rfl, rfl, rfl, rfl, rfl,
    ?_, ?_⟩
  · simp [round, phaseA, phaseB, phaseA_step, h, phaseC, phaseC_loop]
  · simp only [round, phaseA, phaseB, phaseA_step, List.foldl, h]
    simpa using hp.1
  · simp only [round, phaseA, phaseB, phaseA_step, List.foldl, h]
    have := hp.2 h
    rw [hs] at this
    simpa using this

/-- C9 on the change set `[200]` with a transport that never delivers anything. -/
theorem fetch_failure_round_witness :
    (fetchItem deadEnv 200 (roundStart deadEnv [200] {})).1 = "" ∧
    ∃ r, (round tableParsers deadEnv [200] {}).1 = some r ∧ r.puts = [] ∧ r.nErrors = 1 ∧
      r.nComments = 0 ∧ r.nUpdated = 0 ∧ r.nUnknown = 0 ∧ r.nOther = 0 ∧
      (round tableParsers deadEnv [200] {}).2.pumps
        ≤ (roundStart deadEnv [200] {}).pumps + 10 ∧
      (round tableParsers deadEnv [200] {}).2.pumps = (({} : World).pumps) + 1 + 10 :=
  ⟨by decide, fetch_failure_round tableParsers deadEnv 200 {} (by decide)⟩

/-! ## The end-to-end scenario -/

/-- C1. End to end: in a round over the change set `[c]`, if the block-fetch of `c`
returns a non-empty body that decodes to `by = a`, `type = "comment"`, `parent = p`,
and the block-fetch of `p` (made after its URI was enqueued) returns a non-empty body
that decodes to `by = b` (when `p = c` there is one item and one fetch, so `b = a`),
then exactly one file is written, the raw body of `c` under author `b` with name `c`,
and `nComments = 1`, `nUpdated = 1`, `nUnknown = 0`, `nErrors = 0`. -/
theorem end_to_end_round (P : Parsers) (env : Nat → PumpInput) (w : World) (c p : Int)
    (a b : String)
    (hbody : (fetchItem env c (roundStart env [c] w)).1 ≠ "")
    (hby : P.parseJSONMap (fetchItem env c (roundStart env [c] w)).1 "by" = some a)
    (hty : P.parseJSONMap (fetchItem env c (roundStart env [c] w)).1 "type" = some "comment")
    (hpar : (parseComment P (P.parseJSONMap (fetchItem env c (roundStart env [c] w)).1)).parent
      = p)
    (hparent : p ≠ c →
      (fetchItem env p
        (requestJSONForURI (getItemURI p) (fetchItem env c (roundStart env [c] w)).2)).1 ≠ "" ∧
      P.parseJSONMap (fetchItem env p
        (requestJSONForURI (getItemURI p) (fetchItem env c (roundStart env [c] w)).2)).1 "by"
        = some b)
    (hself : p = c → b = a) :
    ∃ r, (round P env [c] w).1 = some r ∧
      r.puts = [⟨b, c, (fetchItem env c (roundStart env [c] w)).1⟩] ∧
      r.nComments = 1 ∧ r.nUpdated = 1 ∧ r.nUnknown = 0 ∧ r.nErrors = 0 := by
  have hty2 : getItemType (P.parseJSONMap (fetchItem env c (roundStart env [c] w)).1)
      = .Comment := by
    simp [getItemType, hty]
  by_cases hpc : p = c
  · have hba := hself hpc
    subst hpc
    subst hba
    simp [round, phaseA, phaseB, phaseA_step, phaseB_step, phaseC, phaseC_loop, phaseC_step,
      hbody, hby, hty2, hpar, mapSet, mapInsert]
  · obtain ⟨h1, h2⟩ := hparent hpc
    simp [round, phaseA, phaseB, phaseA_step, phaseB_step, phaseC, phaseC_loop, phaseC_step,
      hbody, hby, hty2, hpar, mapSet, mapInsert, hpc, h1, h2]

/-- C1 on the scenario of the specification: change set `[100]`, item 100 a comment by
alice with parent 50, item 50 a story by bob. -/
theorem end_to_end_round_witness :
    (fetchItem scenarioEnv 100 (roundStart scenarioEnv [100] {})).1 = body100 ∧
    ∃ r, (round tableParsers scenarioEnv [100] {}).1 = some r ∧
      r.puts = [⟨"bob", 100, (fetchItem scenarioEnv 100 (roundStart scenarioEnv [100] {})).1⟩] ∧
      r.nComments = 1 ∧ r.nUpdated = 1 ∧ r.nUnknown = 0 ∧ r.nErrors = 0 :=
  ⟨by decide,
    end_to_end_round tableParsers scenarioEnv {} 100 50 "alice" "bob"
      (by decide) (by decide) (by decide) (by decide) (fun _ => by decide)
      (fun h => absurd h (by decide))⟩

/-! ## The maps of a round -/

theorem mem_mapInsert {α : Type} (k : Int) (v : α) (l : List (Int × α)) (e : Int × α)
    (h : e ∈ mapInsert k v l) : e = (k, v) ∨ e ∈ l := by
  induction l with
  | nil =>
    simp only [mapInsert, List.mem_singleton] at h
    exact Or.inl h
  | cons x xs ih =>
    simp only [mapInsert] at h
    split at h
    · rcases List.mem_cons.1 h with h1 | h1
      · exact Or.inl h1
      · exact Or.inr h1
    · split at h
      · rcases List.mem_cons.1 h with h1 | h1
        · exact Or.inl h1
        · exact Or.inr (List.mem_cons_of_mem _ h1)
      · rcases List.mem_cons.1 h with h1 | h1
        · exact Or.inr (by rw [h1]; exact List.mem_cons_self _ _)
        · rcases ih h1 with h2 | h2
          · exact Or.inl h2
          · exact Or.inr (List.mem_cons_of_mem _ h2)

theorem mapInsert_sorted {α : Type} (k : Int) (v : α) (l : List (Int × α))
    (h : (l.map Prod.fst).Pairwise (· < ·)) :
    ((mapInsert k v l).map Prod.fst).Pairwise (· < ·) := by
  induction l with
  | nil => simp [mapInsert]
  | cons x xs ih =>
    rw [List.map_cons, List.pairwise_cons] at h
    obtain ⟨hx, hxs⟩ := h
    simp only [mapInsert]
    split
    · next hlt =>
      simp only [List.map_cons, List.pairwise_cons]
      refine ⟨?_, hx, hxs⟩
      intro y hy
      rcases List.mem_cons.1 hy with h1 | h1
      · rw [h1]; exact hlt
      · exact lt_trans hlt (hx y h1)
    · split
      · next hnlt heq =>
        simp only [List.map_cons, List.pairwise_cons]
        refine ⟨?_, hxs⟩
        intro y hy
        rw [heq]
        exact hx y hy
      · next hnlt hne =>
        simp only [List.map_cons, List.pairwise_cons]
        refine ⟨?_, ih hxs⟩
        intro y hy
        obtain ⟨e, he, rfl⟩ := List.mem_map.1 hy
        rcases mem_mapInsert k v xs e he with h1 | h1
        · rw [h1]
          show x.1 < k
          omega
        · exact hx e.1 (List.mem_map_of_mem _ h1)

theorem sorted_keys_inj {α : Type} (l : List (Int × α))
    (h : (l.map Prod.fst).Pairwise (· < ·)) (e1 e2 : Int × α) (h1 : e1 ∈ l) (h2 : e2 ∈ l)
    (hk : e1.1 = e2.1) : e1 = e2 := by
  have hn : (l.map Prod.fst).Nodup := h.imp (fun hab => ne_of_lt hab)
  exact List.inj_on_of_nodup_map hn h1 h2 hk

theorem mapSet_isSome (m : Int → Option String) (k : Int) (v : String) (j : Int)
    (h : (m j).isSome = true) : (mapSet m k v j).isSome = true := by
  unfold mapSet
  split
  · rfl
  · exact h

theorem mapSet_self (m : Int → Option String) (k : Int) (v : String) :
    mapSet m k v k = some v := by
  simp [mapSet]

theorem roundInv_phaseA_step (P : Parsers) (env : Nat → PumpInput) (rw : Round × World)
    (id : Int) (h : RoundInv rw.1) : RoundInv (phaseA_step P env rw id).1 := by
  obtain ⟨hs, hm⟩ := h
  unfold phaseA_step
  dsimp only
  split
  · exact ⟨hs, hm⟩
  · split
    · exact ⟨hs, fun e he => ⟨mapSet_isSome _ _ _ _ (hm e he).1, (hm e he).2⟩⟩
    · split
      · exact ⟨hs, fun e he => ⟨mapSet_isSome _ _ _ _ (hm e he).1, (hm e he).2⟩⟩
      · split
        · refine ⟨mapInsert_sorted _ _ _ hs, ?_⟩
          intro e he
          rcases mem_mapInsert _ _ _ e he with h1 | h1
          · rw [h1]
            exact ⟨by simp [mapSet], by simp [mapSet]⟩
          · exact ⟨mapSet_isSome _ _ _ _ (hm e h1).1, mapSet_isSome _ _ _ _ (hm e h1).2⟩
        · exact ⟨hs, fun e he =>
            ⟨mapSet_isSome _ _ _ _ (hm e he).1, mapSet_isSome _ _ _ _ (hm e he).2⟩⟩

theorem roundInv_phaseA (P : Parsers) (env : Nat → PumpInput) (ids : List Int)
    (rw : Round × World) (h : RoundInv rw.1) : RoundInv (phaseA P env ids rw).1 := by
  unfold phaseA
  induction ids generalizing rw with
  | nil => exact h
  | cons x xs ih => exact ih _ (roundInv_phaseA_step P env rw x h)

theorem phaseB_step_keeps (P : Parsers) (env : Nat → PumpInput) (rw : Round × World)
    (id : Int) :
    (phaseB_step P env rw id).1.comments = rw.1.comments ∧
    (phaseB_step P env rw id).1.raw = rw.1.raw ∧
    (∀ j, (rw.1.by_ j).isSome = true → ((phaseB_step P env rw id).1.by_ j).isSome = true) := by
  unfold phaseB_step
  dsimp only
  split
  · exact ⟨rfl, rfl, fun _ h => h⟩
  · split
    · exact ⟨rfl, rfl, fun _ h => h⟩
    · split
      · exact ⟨rfl, rfl, fun _ h => h⟩
      · exact ⟨rfl, rfl, fun j h => mapSet_isSome _ _ _ _ h⟩

theorem phaseB_keeps (P : Parsers) (env : Nat → PumpInput) (parents : List Int)
    (rw : Round × World) :
    (phaseB P env parents rw).1.comments = rw.1.comments ∧
    (phaseB P env parents rw).1.raw = rw.1.raw ∧
    (∀ j, (rw.1.by_ j).isSome = true → ((phaseB P env parents rw).1.by_ j).isSome = true) := by
  unfold phaseB
  induction parents generalizing rw with
  | nil => exact ⟨rfl, rfl, fun _ h => h⟩
  | cons x xs ih =>
    simp only [List.foldl]
    obtain ⟨a, b, c⟩ := ih (phaseB_step P env rw x)
    obtain ⟨a1, b1, c1⟩ := phaseB_step_keeps P env rw x
    exact ⟨a.trans a1, b.trans b1, fun j h => c j (c1 j h)⟩

theorem roundInv_phaseB (P : Parsers) (env : Nat → PumpInput) (parents : List Int)
    (rw : Round × World) (h : RoundInv rw.1) : RoundInv (phaseB P env parents rw).1 := by
  obtain ⟨a, b, c⟩ := phaseB_keeps P env parents rw
  obtain ⟨hs, hm⟩ := h
  refine ⟨by rw [a]; exact hs, ?_⟩
  intro e he
  rw [a] at he
  rw [b]
  exact ⟨(hm e he).1, c _ (hm e he).2⟩

theorem roundInv_empty : RoundInv {} := by
  refine ⟨by simp, ?_⟩
  intro e he
  simp at he

/-! ## The commit loop -/

theorem phaseC_loop_spec (es : List (Int × Comment)) (r : Round)
    (hraw : ∀ e ∈ es, (r.raw e.1).isSome = true) :
    ∃ r1, phaseC_loop es r = some r1 ∧
      r1.by_ = r.by_ ∧ r1.raw = r.raw ∧ r1.comments = r.comments ∧ r1.parents = r.parents ∧
      r1.nComments = r.nComments ∧ r1.nOther = r.nOther ∧ r1.nErrors = r.nErrors ∧
      r1.nUnknown = r.nUnknown + (es.filter (fun e => (r.by_ e.2.parent).isNone)).length ∧
      r1.nUpdated = r.nUpdated + (es.filter (fun e => (r.by_ e.2.parent).isSome)).length ∧
      r1.puts = r.puts ++ commitPuts r.by_ r.raw es := by
  induction es generalizing r with
  | nil => exact ⟨r, rfl, rfl, rfl, rfl, rfl, rfl, rfl, rfl, by simp, by simp, by simp [commitPuts]⟩
  | cons e es ih =>
    have he := hraw e (List.mem_cons_self _ _)
    have hes : ∀ x ∈ es, (r.raw x.1).isSome = true := fun x hx => hraw x (List.mem_cons_of_mem _ hx)
    obtain ⟨body, hbody⟩ := Option.isSome_iff_exists.1 he
    cases hp : r.by_ e.2.parent with
    | none =>
      obtain ⟨r1, h1, h2, h3, h4, h5, h6, h7, h8, h9, h10, h11⟩ :=
        ih { r with nUnknown := r.nUnknown + 1 } hes
      refine ⟨r1, ?_, h2, h3, h4, h5, h6, h7, h8, ?_, ?_, ?_⟩
      · simp only [phaseC_loop, phaseC_step, hp]
        exact h1
      · rw [h9]
        simp [List.filter_cons, hp]
        omega
      · rw [h10]
        simp [List.filter_cons, hp]
      · rw [h11]
        simp [commitPuts, List.filterMap_cons, hp]
    | some author =>
      obtain ⟨r1, h1, h2, h3, h4, h5, h6, h7, h8, h9, h10, h11⟩ :=
        ih { r with nUpdated := r.nUpdated + 1, puts := r.puts ++ [⟨author, e.1, body⟩] } hes
      refine ⟨r1, ?_, h2, h3, h4, h5, h6, h7, h8, ?_, ?_, ?_⟩
      · simp only [phaseC_loop, phaseC_step, hp, hbody]
        exact h1
      · rw [h9]
        simp [List.filter_cons, hp]
      · rw [h10]
        simp [List.filter_cons, hp]
        omega
      · rw [h11]
        simp [commitPuts, List.filterMap_cons, hp, hbody]

theorem mem_commitPuts (by_ raw : Int → Option String) (es : List (Int × Comment)) (p : Put)
    (h : p ∈ commitPuts by_ raw es) :
    ∃ e ∈ es, p.id = e.1 ∧ by_ e.2.parent = some p.author ∧ raw e.1 = some p.body := by
  unfold commitPuts at h
  obtain ⟨e, he, hp⟩ := List.mem_filterMap.1 h
  refine ⟨e, he, ?_⟩
  cases hb : by_ e.2.parent with
  | none => simp [hb] at hp
  | some author =>
    cases hr : raw e.1 with
    | none => simp [hb, hr] at hp
    | some body =>
      simp only [hb, hr, Option.some.injEq] at hp
      subst hp
      exact ⟨rfl, rfl, rfl⟩

theorem phaseA_step_commit (P : Parsers) (env : Nat → PumpInput) (rw : Round × World)
    (id : Int) :
    (phaseA_step P env rw id).1.nUnknown = rw.1.nUnknown ∧
    (phaseA_step P env rw id).1.nUpdated = rw.1.nUpdated ∧
    (phaseA_step P env rw id).1.puts = rw.1.puts := by
  unfold phaseA_step
  dsimp only
  split
  · exact ⟨rfl, rfl, rfl⟩
  · split
    · exact ⟨rfl, rfl, rfl⟩
    · split
      · exact ⟨rfl, rfl, rfl⟩
      · split <;> exact ⟨rfl, rfl, rfl⟩

theorem phaseA_commit (P : Parsers) (env : Nat → PumpInput) (ids : List Int)
    (rw : Round × World) :
    (phaseA P env ids rw).1.nUnknown = rw.1.nUnknown ∧
    (phaseA P env ids rw).1.nUpdated = rw.1.nUpdated ∧
    (phaseA P env ids rw).1.puts = rw.1.puts := by
  unfold phaseA
  induction ids generalizing rw with
  | nil => exact ⟨rfl, rfl, rfl⟩
  | cons x xs ih =>
    simp only [List.foldl]
    obtain ⟨a, b, c⟩ := ih (phaseA_step P env rw x)
    obtain ⟨a1, b1, c1⟩ := phaseA_step_commit P env rw x
    exact ⟨a.trans a1, b.trans b1, c.trans c1⟩

theorem phaseB_step_commit (P : Parsers) (env : Nat → PumpInput) (rw : Round × World)
    (id : Int) :
    (phaseB_step P env rw id).1.nUnknown = rw.1.nUnknown ∧
    (phaseB_step P env rw id).1.nUpdated = rw.1.nUpdated ∧
    (phaseB_step P env rw id).1.puts = rw.1.puts := by
  unfold phaseB_step
  dsimp only
  split
  · exact ⟨rfl, rfl, rfl⟩
  · split
    · exact ⟨rfl, rfl, rfl⟩
    · split <;> exact ⟨rfl, rfl, rfl⟩

theorem phaseB_commit (P : Parsers) (env : Nat → PumpInput) (parents : List Int)
    (rw : Round × World) :
    (phaseB P env parents rw).1.nUnknown = rw.1.nUnknown ∧
    (phaseB P env parents rw).1.nUpdated = rw.1.nUpdated ∧
    (phaseB P env parents rw).1.puts = rw.1.puts := by
  unfold phaseB
  induction parents generalizing rw with
  | nil => exact ⟨rfl, rfl, rfl⟩
  | cons x xs ih =>
    simp only [List.foldl]
    obtain ⟨a, b, c⟩ := ih (phaseB_step P env rw x)
    obtain ⟨a1, b1, c1⟩ := phaseB_step_commit P env rw x
    exact ⟨a.trans a1, b.trans b1, c.trans c1⟩

/-- The end of a round: the commit loop runs to its end on the maps left by the two
fetch loops. -/
theorem round_commits (P : Parsers) (env : Nat → PumpInput) (ids : List Int) (w : World) :
    ∃ r, (round P env ids w).1 = some r ∧ RoundInv r ∧
      r.comments = (phaseA P env ids ({}, roundStart env ids w)).1.comments ∧
      r.by_ = (phaseB P env (phaseA P env ids ({}, roundStart env ids w)).1.parents
        (phaseA P env ids ({}, roundStart env ids w))).1.by_ ∧
      r.nUnknown = (r.comments.filter (fun e => (r.by_ e.2.parent).isNone)).length ∧
      r.nUpdated = (r.comments.filter (fun e => (r.by_ e.2.parent).isSome)).length ∧
      r.puts = commitPuts r.by_ r.raw r.comments := by
  have hA : RoundInv (phaseA P env ids ({}, roundStart env ids w)).1 :=
    roundInv_phaseA P env ids _ roundInv_empty
  have hB := roundInv_phaseB P env (phaseA P env ids ({}, roundStart env ids w)).1.parents _ hA
  obtain ⟨kc, _, _⟩ := phaseB_keeps P env
    (phaseA P env ids ({}, roundStart env ids w)).1.parents
    (phaseA P env ids ({}, roundStart env ids w))
  obtain ⟨a1, a2, a3⟩ := phaseA_commit P env ids ({}, roundStart env ids w)
  obtain ⟨b1, b2, b3⟩ := phaseB_commit P env
    (phaseA P env ids ({}, roundStart env ids w)).1.parents
    (phaseA P env ids ({}, roundStart env ids w))
  have hround : (round P env ids w).1 = phaseC_loop
      (phaseB P env (phaseA P env ids ({}, roundStart env ids w)).1.parents
        (phaseA P env ids ({}, roundStart env ids w))).1.comments
      (phaseB P env (phaseA P env ids ({}, roundStart env ids w)).1.parents
        (phaseA P env ids ({}, roundStart env ids w))).1 := rfl
  rw [hround]
  generalize phaseB P env (phaseA P env ids ({}, roundStart env ids w)).1.parents
    (phaseA P env ids ({}, roundStart env ids w)) = rb at *
  obtain ⟨r1, h1, h2, h3, h4, _, _, _, _, h9, h10, h11⟩ :=
    phaseC_loop_spec rb.1.comments rb.1 (fun e he => (hB.2 e he).1)
  refine ⟨r1, h1, ?_, ?_, h2, ?_, ?_, ?_⟩
  · exact ⟨by rw [h4]; exact hB.1, fun e he => by rw [h3, h2]; rw [h4] at he; exact hB.2 e he⟩
  · rw [h4]; exact kc
  · rw [h9, h2, h4, b1, a1]; simp
  · rw [h10, h2, h4, b2, a2]; simp
  · rw [h11, h2, h3, h4, b3, a3]; simp

/-- C8. Unknown parent: every round ends normally; a comment recorded in the round
whose parent has no author after both fetch loops (its parent was not resolved in the
first loop and every fetch of it in the second came back empty or without `by`) makes
the commit loop add exactly one to `nUnknown` and write nothing, no file of the round
carries its id, and `nUnknown` of the round is the number of recorded comments whose
parent has no author. -/
theorem unknown_parent_round (P : Parsers) (env : Nat → PumpInput) (ids : List Int) (w : World) :
    (∀ (r0 : Round) (e : Int × Comment), r0.by_ e.2.parent = none →
      phaseC_step r0 e = some { r0 with nUnknown := r0.nUnknown + 1 }) ∧
    ∃ r, (round P env ids w).1 = some r ∧
      r.comments = (phaseA P env ids ({}, roundStart env ids w)).1.comments ∧
      r.by_ = (phaseB P env (phaseA P env ids ({}, roundStart env ids w)).1.parents
        (phaseA P env ids ({}, roundStart env ids w))).1.by_ ∧
      (∀ e ∈ r.comments, r.by_ e.2.parent = none → ∀ p ∈ r.puts, p.id ≠ e.1) ∧
      r.nUnknown = (r.comments.filter (fun e => (r.by_ e.2.parent).isNone)).length := by
  refine ⟨?_, ?_⟩
  · intro r0 e h
    simp [phaseC_step, h]
  · obtain ⟨r, h1, hinv, h2, h3, h4, _, h6⟩ := round_commits P env ids w
    refine ⟨r, h1, h2, h3, ?_, h4⟩
    intro e he hnone p hp hid
    rw [h6] at hp
    obtain ⟨e2, he2, hid2, hby, _⟩ := mem_commitPuts _ _ _ p hp
    have : e2 = e := sorted_keys_inj r.comments hinv.1 e2 e he2 he (by rw [← hid2, hid])
    rw [this, hnone] at hby
    cases hby

/-- C8 on a round over `[100]` in which the parent, item 50, never arrives: the
comment is recorded, counted once as unknown, and no file is written. -/
theorem unknown_parent_round_witness :
    (round tableParsers lostParentEnv [100] {}).1.map
        (fun r => (r.nComments, r.nUnknown, r.nUpdated, r.nErrors, r.puts))
      = some (1, 1, 0, 1, []) ∧
    ∃ r, (round tableParsers lostParentEnv [100] {}).1 = some r ∧
      r.comments = (phaseA tableParsers lostParentEnv [100]
        ({}, roundStart lostParentEnv [100] {})).1.comments ∧
      r.by_ = (phaseB tableParsers lostParentEnv
        (phaseA tableParsers lostParentEnv [100] ({}, roundStart lostParentEnv [100] {})).1.parents
        (phaseA tableParsers lostParentEnv [100] ({}, roundStart lostParentEnv [100] {}))).1.by_ ∧
      (∀ e ∈ r.comments, r.by_ e.2.parent = none → ∀ p ∈ r.puts, p.id ≠ e.1) ∧
      r.nUnknown = (r.comments.filter (fun e => (r.by_ e.2.parent).isNone)).length :=
  ⟨by decide, (unknown_parent_round tableParsers lostParentEnv [100] {}).2⟩

/-- C5 at a concrete state: slot 0 is busy with item 1 and no completion is reported;
the pump binds the queued item 2 to slot 1 and leaves slot 0 as it was. -/
theorem pump_never_rebinds_busy_slot_witness :
    (busyState.slot 0).running = true ∧
    (updateRequests_run { still_alive := 1 } busyState).2 = [(1, getItemURI 2)] ∧
    ((updateRequests_impl { still_alive := 1 } busyState).slot 0).running = true ∧
    ((updateRequests_impl { still_alive := 1 } busyState).slot 0).uri = getItemURI 1 :=
  have h := pump_never_rebinds_busy_slot { still_alive := 1 } busyState 0 (by decide) (by decide)
  ⟨by decide, by decide, h.1.1, h.1.2.trans (by decide)⟩

/-! ## The pending queue -/

theorem dispatchLoop_queue (q : List String) (alive : Int) (s : Globals) :
    q = (dispatchLoop q alive s).2.map Prod.snd ++ (dispatchLoop q alive s).1.g_fetchQueue := by
  induction q generalizing alive s with
  | nil => rfl
  | cons uri rest ih =>
    simp only [dispatchLoop]
    split
    · split
      · rfl
      · simp only [List.map_cons, List.cons_append]
        rw [← ih]
    · rfl

theorem beforeDispatch_queue (inp : PumpInput) (s : Globals) :
    (beforeDispatch inp s).g_fetchQueue = s.g_fetchQueue := by
  unfold beforeDispatch
  rw [foldl_write_queue, foldl_handleMsg_queue]

theorem handleMsg_stays_idle (s : Globals) (m : CURLMsg) (i : Nat)
    (h : (s.slot i).running = false) : ((handleMsg s m).slot i).running = false := by
  cases m with
  | OTHER c => exact h
  | DONE idx =>
    simp only [handleMsg, Globals.slot]
    rw [getD_slotUpdate]
    split
    · rfl
    · exact h

theorem handleMsg_done_idle (s : Globals) (i : Nat) :
    ((handleMsg s (.DONE i)).slot i).running = false := by
  simp only [handleMsg, Globals.slot]
  rw [getD_slotUpdate]
  split
  · rfl
  · next h =>
    have hi : ¬ i < s.g_fetchData.length := fun hc => h ⟨rfl, hc⟩
    simp [List.getD_eq_getElem?_getD, List.getElem?_eq_none (Nat.le_of_not_lt hi)]
    rfl

theorem foldl_handleMsg_stays_idle (msgs : List CURLMsg) (s : Globals) (i : Nat)
    (h : (s.slot i).running = false) : ((msgs.foldl handleMsg s).slot i).running = false := by
  induction msgs generalizing s with
  | nil => exact h
  | cons m ms ih => exact ih _ (handleMsg_stays_idle s m i h)

theorem foldl_handleMsg_done (msgs : List CURLMsg) (s : Globals) (i : Nat)
    (h : CURLMsg.DONE i ∈ msgs) : ((msgs.foldl handleMsg s).slot i).running = false := by
  induction msgs generalizing s with
  | nil => simp at h
  | cons m ms ih =>
    simp only [List.foldl]
    rcases List.mem_cons.1 h with h1 | h1
    · rw [← h1]
      exact foldl_handleMsg_stays_idle ms _ i (handleMsg_done_idle s i)
    · exact ih _ h1

theorem dispatchLoop_others (q : List String) (alive : Int) (s : Globals) (i : Nat)
    (h : i ∉ (dispatchLoop q alive s).2.map Prod.fst) :
    (dispatchLoop q alive s).1.slot i = s.slot i := by
  induction q generalizing alive s with
  | nil => rfl
  | cons uri rest ih =>
    simp only [dispatchLoop] at h ⊢
    split
    · next halive =>
      rw [if_pos halive] at h
      split
      · rfl
      · next hne =>
        rw [if_neg hne] at h
        simp only [List.map_cons, List.mem_cons, not_or] at h
        have hlt : scanIdle s.g_fetchData s.g_fetchData.length 0 < s.g_fetchData.length :=
          lt_of_le_of_ne (scanIdle_full s.g_fetchData).1 hne
        rw [ih _ _ h.2, dispatch_bind_slot s _ i uri rest hlt, if_neg h.1]
    · rfl

/-- C14. No re-enqueue: `updateRequests_impl` never appends to `g_fetchQueue`. The
queue before the call is the URIs of the transfers the call adds, in the order it adds
them, followed by the queue after the call; handling the completion messages and the
write callbacks leaves the queue as it was; a slot for which a `CURLMSG_DONE` is
handled (whatever result the message carries, the code does not look at it) is free
when the dispatch loop starts, and at the end of the call it is free or bound to a URI
this call took from the queue front. -/
theorem pump_never_requeues (inp : PumpInput) (s : Globals) :
    s.g_fetchQueue = (updateRequests_run inp s).2.map Prod.snd
      ++ (updateRequests_impl inp s).g_fetchQueue ∧
    (beforeDispatch inp s).g_fetchQueue = s.g_fetchQueue ∧
    (updateRequests_impl inp s).g_fetchQueue.length ≤ s.g_fetchQueue.length ∧
    (∀ idx, CURLMsg.DONE idx ∈ inp.msgs →
      ((beforeDispatch inp s).slot idx).running = false ∧
      (((updateRequests_impl inp s).slot idx).running = false ∨
        ∃ b ∈ (updateRequests_run inp s).2, b.1 = idx ∧
          ((updateRequests_impl inp s).slot idx).uri = b.2)) := by
  have hq := dispatchLoop_queue (beforeDispatch inp s).g_fetchQueue inp.still_alive
    (beforeDispatch inp s)
  have hq2 : s.g_fetchQueue = (updateRequests_run inp s).2.map Prod.snd
      ++ (updateRequests_impl inp s).g_fetchQueue :=
    (beforeDispatch_queue inp s).symm.trans hq
  refine ⟨hq2, beforeDispatch_queue inp s, ?_, ?_⟩
  · have := congrArg List.length hq2
    rw [List.length_append] at this
    omega
  · intro idx hidx
    have hidle : ((beforeDispatch inp s).slot idx).running = false := by
      unfold beforeDispatch
      rw [(foldl_write_slot inp.chunks _ idx).1]
      exact foldl_handleMsg_done inp.msgs s idx hidx
    refine ⟨hidle, ?_⟩
    by_cases hmem : idx ∈ (updateRequests_run inp s).2.map Prod.fst
    · right
      obtain ⟨b, hb, hb1⟩ := List.mem_map.1 hmem
      refine ⟨b, hb, hb1, ?_⟩
      have := (dispatchLoop_log (beforeDispatch inp s).g_fetchQueue inp.still_alive
        (beforeDispatch inp s)).1 b hb
      rw [← hb1]
      exact this.2.2.2
    · left
      have := dispatchLoop_others (beforeDispatch inp s).g_fetchQueue inp.still_alive
        (beforeDispatch inp s) idx hmem
      show ((dispatchLoop (beforeDispatch inp s).g_fetchQueue inp.still_alive
        (beforeDispatch inp s)).1.slot idx).running = false
      rw [this]
      exact hidle

/-! ## The counters -/

theorem writeFunction_counters (idx : Nat) (bytes : String) (s : Globals)
    (h : s.g_totalBytesDownloaded + bytes.utf8ByteSize < 2 ^ 64) :
    s.g_totalBytesDownloaded ≤ (writeFunction idx bytes s).g_totalBytesDownloaded ∧
    (writeFunction idx bytes s).g_totalBytesDownloaded
      ≤ s.g_totalBytesDownloaded + bytes.utf8ByteSize ∧
    (writeFunction idx bytes s).g_nFetches = s.g_nFetches := by
  unfold writeFunction
  split
  · exact ⟨le_refl _, by omega, rfl⟩
  · dsimp only
    rw [Nat.mod_eq_of_lt h]
    exact ⟨by omega, le_refl _, rfl⟩

theorem foldl_write_counters (chunks : List (Nat × String)) (s : Globals)
    (h : s.g_totalBytesDownloaded + chunkBytes chunks < 2 ^ 64) :
    s.g_totalBytesDownloaded
      ≤ (chunks.foldl (fun t c => writeFunction c.1 c.2 t) s).g_totalBytesDownloaded ∧
    (chunks.foldl (fun t c => writeFunction c.1 c.2 t) s).g_totalBytesDownloaded
      ≤ s.g_totalBytesDownloaded + chunkBytes chunks ∧
    (chunks.foldl (fun t c => writeFunction c.1 c.2 t) s).g_nFetches = s.g_nFetches := by
  induction chunks generalizing s with
  | nil => exact ⟨le_refl _, Nat.le_add_right _ _, rfl⟩
  | cons c cs ih =>
    simp only [chunkBytes, List.map_cons, List.sum_cons] at h
    have hc : s.g_totalBytesDownloaded + c.2.utf8ByteSize < 2 ^ 64 := by omega
    obtain ⟨a1, a2, a3⟩ := writeFunction_counters c.1 c.2 s hc
    obtain ⟨b1, b2, b3⟩ := ih (writeFunction c.1 c.2 s) (by
      unfold chunkBytes
      omega)
    simp only [List.foldl, chunkBytes, List.map_cons, List.sum_cons]
    unfold chunkBytes at b2
    exact ⟨by omega, by omega, b3.trans a3⟩

theorem foldl_handleMsg_counters (msgs : List CURLMsg) (s : Globals) :
    (msgs.foldl handleMsg s).g_totalBytesDownloaded = s.g_totalBytesDownloaded ∧
    (msgs.foldl handleMsg s).g_nFetches = s.g_nFetches := by
  induction msgs generalizing s with
  | nil => exact ⟨rfl, rfl⟩
  | cons m ms ih =>
    simp only [List.foldl]
    obtain ⟨a, b⟩ := ih (handleMsg s m)
    cases m <;> exact ⟨a, b⟩

theorem wrapInt32_of_range (x : Int) (h1 : -2 ^ 31 ≤ x) (h2 : x < 2 ^ 31) :
    wrapInt32 x = x := by
  unfold wrapInt32
  omega

theorem dispatchLoop_bytes (q : List String) (alive : Int) (s : Globals) :
    (dispatchLoop q alive s).1.g_totalBytesDownloaded = s.g_totalBytesDownloaded := by
  induction q generalizing alive s with
  | nil => rfl
  | cons uri rest ih =>
    simp only [dispatchLoop]
    split
    · split
      · rfl
      · rw [ih]
        rfl
    · rfl

theorem dispatchLoop_counters (q : List String) (alive : Int) (s : Globals)
    (hlo : -2 ^ 31 ≤ s.g_nFetches)
    (hhi : s.g_nFetches + (dispatchLoop q alive s).2.length < 2 ^ 31) :
    (dispatchLoop q alive s).1.g_nFetches = s.g_nFetches + (dispatchLoop q alive s).2.length := by
  induction q generalizing alive s with
  | nil => simp [dispatchLoop]
  | cons uri rest ih =>
    simp only [dispatchLoop] at hhi ⊢
    split
    · next halive =>
      rw [if_pos halive] at hhi
      split
      · simp
      · next hne =>
        rw [if_neg hne] at hhi
        simp only [List.length_cons, Nat.cast_add, Nat.cast_one] at hhi ⊢
        have hw : wrapInt32 (s.g_nFetches + 1) = s.g_nFetches + 1 :=
          wrapInt32_of_range _ (by omega) (by omega)
        have key := ih (alive + 1) (addTransfer (scanIdle s.g_fetchData s.g_fetchData.length 0)
          { s with
            g_fetchQueue := rest
            g_nFetches := wrapInt32 (s.g_nFetches + 1)
            g_fetchData := slotUpdate s.g_fetchData (scanIdle s.g_fetchData s.g_fetchData.length 0)
              (fun data => { data with running := true, uri := uri }) })
          (by show -2 ^ 31 ≤ wrapInt32 (s.g_nFetches + 1); omega)
          (by
            show wrapInt32 (s.g_nFetches + 1) + _ < 2 ^ 31
            omega)
        rw [key]
        show wrapInt32 (s.g_nFetches + 1) + _ = _
        omega
    · simp

/-- The request counter at `INT_MAX`: the pump that dispatches one more transfer
leaves `g_nFetches` at `INT_MIN`. -/
theorem nFetches_wraps_at_int_max :
    (updateRequests_impl {}
      { Globals.init with g_nFetches := 2147483647, g_fetchQueue := [getItemURI 1] }).g_nFetches
      = -2147483648 := by
  decide

/-- C15. The counters: for every operation (enqueue, pump, write callback, cache read)
from any state, as long as the bytes the operation receives do not take the `uint64_t`
byte counter past `2^64` and the transfers it dispatches do not take the `int` request
counter past `INT_MAX`, `g_totalBytesDownloaded` and `g_nFetches` after the operation
are at least their values before it; the byte counter grows by at most the bytes
received; and the request counter grows by exactly the number of transfers the
operation dispatches (none for anything but a pump). -/
theorem counters_monotone (op : Op) (s : Globals)
    (h : s.g_totalBytesDownloaded + op.bytes < 2 ^ 64)
    (hlo : -2 ^ 31 ≤ s.g_nFetches)
    (hhi : s.g_nFetches + (op.dispatched s).length < 2 ^ 31) :
    s.g_totalBytesDownloaded ≤ (op.step s).g_totalBytesDownloaded ∧
    s.g_nFetches ≤ (op.step s).g_nFetches ∧
    (op.step s).g_totalBytesDownloaded ≤ s.g_totalBytesDownloaded + op.bytes ∧
    (op.step s).g_nFetches = s.g_nFetches + (op.dispatched s).length := by
  cases op with
  | enqueue uri => exact ⟨le_refl _, le_refl _, by simp [Op.step, requestJSONForURI_impl], by
      simp [Op.step, requestJSONForURI_impl, Op.dispatched]⟩
  | read uri =>
    simp only [Op.step, getJSONForURI_impl, Op.bytes, Op.dispatched]
    split <;> simp
  | write idx bytes =>
    obtain ⟨a, b, c⟩ := writeFunction_counters idx bytes s h
    exact ⟨a, by simp [Op.step, c], b, by simp [Op.step, c, Op.dispatched]⟩
  | pump inp =>
    obtain ⟨m1, m2⟩ := foldl_handleMsg_counters inp.msgs s
    obtain ⟨w1, w2, w3⟩ := foldl_write_counters inp.chunks (inp.msgs.foldl handleMsg s) (by
      rw [m1]; exact h)
    have e3 : (beforeDispatch inp s).g_nFetches = s.g_nFetches := w3.trans m2
    have hhi2 : (beforeDispatch inp s).g_nFetches
        + (dispatchLoop (beforeDispatch inp s).g_fetchQueue inp.still_alive
            (beforeDispatch inp s)).2.length < 2 ^ 31 := by
      rw [e3]
      exact hhi
    have d1 := dispatchLoop_bytes (beforeDispatch inp s).g_fetchQueue inp.still_alive
      (beforeDispatch inp s)
    have d2 := dispatchLoop_counters (beforeDispatch inp s).g_fetchQueue inp.still_alive
      (beforeDispatch inp s) (by rw [e3]; exact hlo) hhi2
    have e1 : ((Op.pump inp).step s).g_totalBytesDownloaded
        = (beforeDispatch inp s).g_totalBytesDownloaded := d1
    have e2 : ((Op.pump inp).step s).g_nFetches
        = (beforeDispatch inp s).g_nFetches + ((Op.pump inp).dispatched s).length := d2
    have e4 : (Op.pump inp).bytes = chunkBytes inp.chunks := rfl
    rw [m1] at w1 w2
    rw [e1, e2, e3, e4]
    exact ⟨w1, by omega, w2, rfl⟩

/-- C15 on the pump of `busyState` that receives the two bytes "ab" on slot 0 and
dispatches item 2: two more bytes, one more request. -/
theorem counters_monotone_witness :
    busyState.g_totalBytesDownloaded + (Op.pump { chunks := [(0, "ab")], still_alive := 1 }).bytes
      < 2 ^ 64 ∧
    busyState.g_nFetches
      + ((Op.pump { chunks := [(0, "ab")], still_alive := 1 }).dispatched busyState).length
      < 2 ^ 31 ∧
    ((Op.pump { chunks := [(0, "ab")], still_alive := 1 }).step busyState).g_totalBytesDownloaded
      = busyState.g_totalBytesDownloaded + 2 ∧
    ((Op.pump { chunks := [(0, "ab")], still_alive := 1 }).step busyState).g_nFetches
      = busyState.g_nFetches + 1 :=
  have h := counters_monotone (.pump { chunks := [(0, "ab")], still_alive := 1 }) busyState
    (by decide) (by decide) (by decide)
  ⟨by decide, by decide, by decide, h.2.2.2.trans (by decide)⟩

/-! ## Dispatch fills the free slots -/

theorem countP_set_idle (l : List Data) (i : Nat) (d : Data) (hi : i < l.length)
    (hidle : (l.getD i default).running = false) (hd : d.running = true) :
    (l.set i d).countP (fun x => x.running) = l.countP (fun x => x.running) + 1 := by
  induction l generalizing i with
  | nil => simp at hi
  | cons x xs ih =>
    cases i with
    | zero =>
      have hx : x.running = false := by simpa using hidle
      simp [List.countP_cons, hx, hd]
    | succ k =>
      have hk : k < xs.length := by simpa using hi
      have hidle2 : (xs.getD k default).running = false := by simpa using hidle
      simp only [List.set_cons_succ, List.countP_cons]
      rw [ih k hk hidle2]
      omega

theorem countP_set_same (l : List Data) (i : Nat) (d : Data) (hi : i < l.length)
    (hd : d.running = (l.getD i default).running) :
    (l.set i d).countP (fun x => x.running) = l.countP (fun x => x.running) := by
  induction l generalizing i with
  | nil => simp at hi
  | cons x xs ih =>
    cases i with
    | zero =>
      have hx : d.running = x.running := by simpa using hd
      simp [List.countP_cons, hx]
    | succ k =>
      have hk : k < xs.length := by simpa using hi
      have hd2 : d.running = (xs.getD k default).running := by simpa using hd
      simp only [List.set_cons_succ, List.countP_cons]
      rw [ih k hk hd2]

theorem slotUpdate_of_lt (l : List Data) (i : Nat) (f : Data → Data) (hi : i < l.length) :
    slotUpdate l i f = l.set i (f (l.getD i default)) := by
  unfold slotUpdate
  rw [List.getElem?_eq_getElem hi]
  simp [List.getD_eq_getElem?_getD, List.getElem?_eq_getElem hi]

theorem busyCount_bind (s : Globals) (idx : Nat) (uri : String) (rest : List String)
    (hidx : idx < s.g_fetchData.length) (hidle : (s.g_fetchData.getD idx default).running = false) :
    busyCount (addTransfer idx
        { s with
          g_fetchQueue := rest
          g_nFetches := wrapInt32 (s.g_nFetches + 1)
          g_fetchData := slotUpdate s.g_fetchData idx
            (fun data => { data with running := true, uri := uri }) }) = busyCount s + 1 := by
  unfold busyCount addTransfer
  dsimp only
  have hidx2 : idx < (slotUpdate s.g_fetchData idx
      (fun data => { data with running := true, uri := uri })).length := by
    rw [length_slotUpdate]; exact hidx
  have h1 := countP_set_same (slotUpdate s.g_fetchData idx
      (fun data => { data with running := true, uri := uri })) idx
    { (slotUpdate s.g_fetchData idx
        (fun data => { data with running := true, uri := uri })).getD idx default with
      eh := true } hidx2 rfl
  have h2 := countP_set_idle s.g_fetchData idx
    { s.g_fetchData.getD idx default with running := true, uri := uri } hidx hidle rfl
  rw [slotUpdate_of_lt _ _ _ hidx2, h1, slotUpdate_of_lt _ _ _ hidx, h2]

theorem all_running_of_count (l : List Data) (h : l.length ≤ l.countP (fun x => x.running))
    (i : Nat) (hi : i < l.length) : (l.getD i default).running = true := by
  have h1 : l.countP (fun x => x.running) = l.length :=
    le_antisymm (List.countP_le_length _) h
  have h2 := List.countP_eq_length.1 h1
  have : l.getD i default = l[i] := by
    simp [List.getD_eq_getElem?_getD, List.getElem?_eq_getElem hi]
  rw [this]
  exact h2 _ (List.getElem_mem hi)

theorem dispatchLoop_exhausts (q : List String) (alive : Int) (s : Globals)
    (hlen : s.g_fetchData.length = MAX_PARALLEL) (halive : alive ≤ busyCount s) :
    (dispatchLoop q alive s).1.g_fetchQueue = [] ∨
      ∀ i, i < MAX_PARALLEL → ((dispatchLoop q alive s).1.slot i).running = true := by
  induction q generalizing alive s with
  | nil => exact Or.inl rfl
  | cons uri rest ih =>
    simp only [dispatchLoop]
    split
    · split
      · next heq =>
        right
        intro i hi
        exact (scanIdle_full s.g_fetchData).2.1 i (by rw [heq, hlen]; exact hi)
      · next hne =>
        have hlt : scanIdle s.g_fetchData s.g_fetchData.length 0 < s.g_fetchData.length :=
          lt_of_le_of_ne (scanIdle_full s.g_fetchData).1 hne
        have hidle := (scanIdle_full s.g_fetchData).2.2 hlt
        apply ih
        · simp [addTransfer, length_slotUpdate, hlen]
        · rw [busyCount_bind s _ uri rest hlt hidle]
          push_cast
          omega
    · next hge =>
      right
      intro i hi
      apply all_running_of_count s.g_fetchData _ i (by rw [hlen]; exact hi)
      have h1 : (MAX_PARALLEL : Int) ≤ busyCount s := by omega
      have h2 : MAX_PARALLEL ≤ busyCount s := by exact_mod_cast h1
      rw [hlen]
      exact h2

theorem dispatchLoop_lowest (q : List String) (alive : Int) (s : Globals) :
    ∀ b ∈ (dispatchLoop q alive s).2, ∀ j, j < b.1 →
      ((dispatchLoop q alive s).1.slot j).running = true := by
  induction q generalizing alive s with
  | nil => simp [dispatchLoop]
  | cons uri rest ih =>
    simp only [dispatchLoop]
    split
    · split
      · simp
      · next hne =>
        have hlt : scanIdle s.g_fetchData s.g_fetchData.length 0 < s.g_fetchData.length :=
          lt_of_le_of_ne (scanIdle_full s.g_fetchData).1 hne
        intro b hb j hj
        rcases List.mem_cons.1 hb with h1 | h1
        · have hrun : (s.slot j).running = true :=
            (scanIdle_full s.g_fetchData).2.1 j (by rw [h1] at hj; exact hj)
          refine (dispatchLoop_keeps rest (alive + 1) _ j ?_).1
          rw [dispatch_bind_slot s _ j uri rest hlt]
          split
          · rfl
          · exact hrun
        · exact ih _ _ b h1 j hj
    · simp

/-- C16. Dispatch fills the free slots: when the array has its `MAX_PARALLEL` slots and
the running count the transport reports in this call is at most the number of busy
slots the dispatch loop starts with, then after `updateRequests_impl` the queue is
empty or every slot is busy; each transfer added took the front of the queue (the
queue before is the dispatched URIs in order followed by the queue after) and went to
the lowest-index idle slot (every slot below it is busy). -/
theorem pump_fills_free_slots (inp : PumpInput) (s : Globals)
    (hlen : s.g_fetchData.length = MAX_PARALLEL)
    (halive : inp.still_alive ≤ busyCount (beforeDispatch inp s)) :
    ((updateRequests_impl inp s).g_fetchQueue = [] ∨
      ∀ i, i < MAX_PARALLEL → ((updateRequests_impl inp s).slot i).running = true) ∧
    s.g_fetchQueue = (updateRequests_run inp s).2.map Prod.snd
      ++ (updateRequests_impl inp s).g_fetchQueue ∧
    (∀ b ∈ (updateRequests_run inp s).2,
      ((beforeDispatch inp s).slot b.1).running = false ∧
      ∀ j, j < b.1 → ((updateRequests_impl inp s).slot j).running = true) := by
  have hlen2 : (beforeDispatch inp s).g_fetchData.length = MAX_PARALLEL := by
    unfold beforeDispatch
    rw [foldl_write_length, foldl_handleMsg_length]
    exact hlen
  refine ⟨dispatchLoop_exhausts _ _ _ hlen2 halive, ?_, ?_⟩
  · exact (beforeDispatch_queue inp s).symm.trans
      (dispatchLoop_queue (beforeDispatch inp s).g_fetchQueue inp.still_alive
        (beforeDispatch inp s))
  · intro b hb
    exact ⟨((dispatchLoop_log (beforeDispatch inp s).g_fetchQueue inp.still_alive
        (beforeDispatch inp s)).1 b hb).2.1,
      dispatchLoop_lowest (beforeDispatch inp s).g_fetchQueue inp.still_alive
        (beforeDispatch inp s) b hb⟩

/-- C16 on `busyState` (slot 0 busy, item 2 queued) with one running transfer
reported: the pump empties the queue into slot 1. -/
theorem pump_fills_free_slots_witness :
    busyState.g_fetchData.length = MAX_PARALLEL ∧
    ((1 : Int) ≤ busyCount (beforeDispatch { still_alive := 1 } busyState)) ∧
    (updateRequests_impl { still_alive := 1 } busyState).g_fetchQueue = [] ∧
    (updateRequests_run { still_alive := 1 } busyState).2 = [(1, getItemURI 2)] :=
  have h := pump_fills_free_slots { still_alive := 1 } busyState (by decide) (by decide)
  ⟨by decide, by decide, h.1.resolve_right (by decide), by decide⟩

/-! ## The scan stays inside the array -/

theorem scanReads_spec (slots : List Data) :
    ∀ fuel idx, idx + fuel = slots.length →
      ∀ i ∈ scanReads slots fuel idx,
        idx ≤ i ∧ i < slots.length ∧ i ≤ scanIdle slots fuel idx := by
  intro fuel
  induction fuel with
  | zero => intro idx _ i hi; simp [scanReads] at hi
  | succ n ih =>
    intro idx h i hi
    simp only [scanReads, List.mem_cons] at hi
    simp only [scanIdle]
    by_cases hr : (slots.getD idx default).running = true
    · rw [if_pos hr] at hi ⊢
      by_cases he : idx + 1 = slots.length
      · rw [if_pos he] at hi ⊢
        rcases hi with h1 | h1
        · exact ⟨by omega, by omega, by omega⟩
        · simp at h1
      · rw [if_neg he] at hi ⊢
        rcases hi with h1 | h1
        · have := (scanIdle_spec slots n (idx + 1) (by omega)).1
          exact ⟨by omega, by omega, by omega⟩
        · obtain ⟨a, b, c⟩ := ih (idx + 1) (by omega) i h1
          exact ⟨by omega, b, c⟩
    · rw [if_neg hr] at hi ⊢
      rcases hi with h1 | h1
      · exact ⟨by omega, by omega, by omega⟩
      · simp at h1

theorem scanIdle_all_busy (slots : List Data)
    (h : ∀ i, i < slots.length → (slots.getD i default).running = true) :
    scanIdle slots slots.length 0 = slots.length := by
  obtain ⟨a, _, c⟩ := scanIdle_full slots
  by_contra hne
  have hlt := lt_of_le_of_ne a hne
  have := c hlt
  rw [h _ hlt] at this
  cases this

theorem dispatchLoop_all_busy (q : List String) (alive : Int) (s : Globals)
    (h : ∀ i, i < s.g_fetchData.length → (s.slot i).running = true) :
    (dispatchLoop q alive s).2 = [] ∧ (dispatchLoop q alive s).1.g_fetchQueue = q ∧
    (dispatchLoop q alive s).1.g_fetchData = s.g_fetchData := by
  cases q with
  | nil => exact ⟨rfl, rfl, rfl⟩
  | cons uri rest =>
    simp only [dispatchLoop]
    split
    · rw [if_pos (scanIdle_all_busy s.g_fetchData h)]
      exact ⟨rfl, rfl, rfl⟩
    · exact ⟨rfl, rfl, rfl⟩

theorem dispatchLoop_content (q : List String) (alive : Int) (s : Globals) (i : Nat) :
    ((dispatchLoop q alive s).1.slot i).content = (s.slot i).content := by
  induction q generalizing alive s with
  | nil => rfl
  | cons uri rest ih =>
    simp only [dispatchLoop]
    split
    · split
      · rfl
      · next hne =>
        have hlt : scanIdle s.g_fetchData s.g_fetchData.length 0 < s.g_fetchData.length :=
          lt_of_le_of_ne (scanIdle_full s.g_fetchData).1 hne
        rw [ih, dispatch_bind_slot s _ i uri rest hlt]
        split
        · next e => rw [e]
        · rfl
    · rfl

/-- C19. The scan stays inside the array: for every slot array of `MAX_PARALLEL`
entries, all busy or not, the free-slot scan reads only indices below `MAX_PARALLEL`
(and none past the index it returns), and returns `MAX_PARALLEL` when all are busy; the
dispatch loop of any call binds only indices below `MAX_PARALLEL`, leaves every slot it does
not bind exactly as it was, and in a slot it binds changes `running` and `uri` (and the
handle `eh`, which `addTransfer` creates) but not the buffer; when no slot is idle the
loop ends at once with nothing dispatched, the queue and the array as they were. -/
theorem dispatch_scan_in_bounds (slots : List Data) (inp : PumpInput) (s : Globals)
    (hslots : slots.length = MAX_PARALLEL) (hlen : s.g_fetchData.length = MAX_PARALLEL) :
    (∀ i ∈ scanReads slots MAX_PARALLEL 0,
      i < MAX_PARALLEL ∧ i ≤ scanIdle slots MAX_PARALLEL 0) ∧
    ((∀ i, i < MAX_PARALLEL → (slots.getD i default).running = true) →
      scanIdle slots MAX_PARALLEL 0 = MAX_PARALLEL) ∧
    (∀ b ∈ (updateRequests_run inp s).2, b.1 < MAX_PARALLEL ∧
      ((updateRequests_impl inp s).slot b.1).running = true ∧
      ((updateRequests_impl inp s).slot b.1).uri = b.2) ∧
    (∀ i, i ∉ (updateRequests_run inp s).2.map Prod.fst →
      (updateRequests_impl inp s).slot i = (beforeDispatch inp s).slot i) ∧
    (∀ i, ((updateRequests_impl inp s).slot i).content
      = ((beforeDispatch inp s).slot i).content) ∧
    (updateRequests_impl inp s).g_fetchData.length = MAX_PARALLEL ∧
    ((∀ i, i < MAX_PARALLEL → ((beforeDispatch inp s).slot i).running = true) →
      (updateRequests_run inp s).2 = [] ∧
      (updateRequests_impl inp s).g_fetchQueue = s.g_fetchQueue ∧
      (updateRequests_impl inp s).g_fetchData = (beforeDispatch inp s).g_fetchData) := by
  have hlen2 : (beforeDispatch inp s).g_fetchData.length = MAX_PARALLEL := by
    unfold beforeDispatch
    rw [foldl_write_length, foldl_handleMsg_length]
    exact hlen
  refine ⟨?_, ?_, ?_, ?_, ?_, ?_, ?_⟩
  · intro i hi
    rw [← hslots] at hi ⊢
    obtain ⟨_, b, c⟩ := scanReads_spec slots slots.length 0 (by omega) i hi
    exact ⟨b, c⟩
  · intro hall
    rw [← hslots] at hall ⊢
    exact scanIdle_all_busy slots hall
  · intro b hb
    obtain ⟨c1, _, c3, c4⟩ := (dispatchLoop_log (beforeDispatch inp s).g_fetchQueue
      inp.still_alive (beforeDispatch inp s)).1 b hb
    exact ⟨by rw [← hlen2]; exact c1, c3, c4⟩
  · intro i hi
    exact dispatchLoop_others (beforeDispatch inp s).g_fetchQueue inp.still_alive
      (beforeDispatch inp s) i hi
  · intro i
    exact dispatchLoop_content (beforeDispatch inp s).g_fetchQueue inp.still_alive
      (beforeDispatch inp s) i
  · exact (dispatchLoop_length (beforeDispatch inp s).g_fetchQueue inp.still_alive
      (beforeDispatch inp s)).trans hlen2
  · intro hall
    have hall2 : ∀ i, i < (beforeDispatch inp s).g_fetchData.length →
        ((beforeDispatch inp s).slot i).running = true := by
      intro i hi
      exact hall i (by rw [← hlen2]; exact hi)
    obtain ⟨a, b, c⟩ := dispatchLoop_all_busy (beforeDispatch inp s).g_fetchQueue
      inp.still_alive (beforeDispatch inp s) hall2
    exact ⟨a, b.trans (beforeDispatch_queue inp s), c⟩

/-- C19 on `busyState`: the scan of the pump reads slots 0 and 1 only and binds
slot 1. -/
theorem dispatch_scan_in_bounds_witness :
    busyState.g_fetchData.length = MAX_PARALLEL ∧
    scanReads busyState.g_fetchData MAX_PARALLEL 0 = [0, 1] ∧
    (∀ i ∈ scanReads busyState.g_fetchData MAX_PARALLEL 0,
      i < MAX_PARALLEL ∧ i ≤ scanIdle busyState.g_fetchData MAX_PARALLEL 0) ∧
    ∀ b ∈ (updateRequests_run { still_alive := 1 } busyState).2, b.1 < MAX_PARALLEL ∧
      ((updateRequests_impl { still_alive := 1 } busyState).slot b.1).running = true ∧
      ((updateRequests_impl { still_alive := 1 } busyState).slot b.1).uri = b.2 :=
  have h := dispatch_scan_in_bounds busyState.g_fetchData { still_alive := 1 } busyState
    (by decide) (by decide)
  ⟨by decide, by decide, h.1, h.2.2.1⟩

/-! ## The blocking fetch, look by look -/

theorem checkAfter_pumps (env : Nat → PumpInput) (uri : String) (w : World) :
    ∀ k, (checkAfter env uri w k).2.pumps = w.pumps + k := by
  intro k
  induction k with
  | zero => rfl
  | succ n ih =>
    simp only [checkAfter, updateRequests]
    rw [ih]
    rfl

theorem retryLoop_checks (env : Nat → PumpInput) (uri : String) (w : World) :
    ∀ n k, ∃ j, j ≤ n ∧
      retryLoop env uri n (checkAfter env uri w k).1 (checkAfter env uri w k).2
        = checkAfter env uri w (k + j) ∧
      (∀ i, i < j → (checkAfter env uri w (k + i)).1 = "") ∧
      ((checkAfter env uri w (k + j)).1 ≠ "" ∨ j = n) := by
  intro n
  induction n with
  | zero =>
    intro k
    exact ⟨0, le_refl _, rfl, fun i hi => absurd hi (Nat.not_lt_zero i), Or.inr rfl⟩
  | succ m ih =>
    intro k
    by_cases hk : (checkAfter env uri w k).1 = ""
    · obtain ⟨j, hj, h1, h2, h3⟩ := ih (k + 1)
      refine ⟨j + 1, by omega, ?_, ?_, ?_⟩
      · simp only [retryLoop, if_pos hk]
        rw [show k + (j + 1) = k + 1 + j by omega, ← h1]
        rfl
      · intro i hi
        cases i with
        | zero => exact hk
        | succ i' =>
          rw [show k + (i' + 1) = k + 1 + i' by omega]
          exact h2 i' (by omega)
      · rw [show k + (j + 1) = k + 1 + j by omega]
        rcases h3 with h3 | h3
        · exact Or.inl h3
        · exact Or.inr (by omega)
    · refine ⟨0, by omega, ?_, fun i hi => absurd hi (Nat.not_lt_zero i), Or.inl hk⟩
      simp only [retryLoop, if_neg hk]
      rfl

/-- C11. The blocking fetch: `HN::getJSONForURI(uri, nRetries, tRetry_ms)` returns
after at most `max(nRetries, 0)` calls of `updateRequests_impl`; when the cache holds
a non-empty body for `uri` at the first look it returns that body, erases the entry
and pumps zero times; in general it returns what the first look with a non-empty body
found (look 0 before any pump, look `j` after the `j`-th pump, each look erasing what
it finds), having pumped exactly `j` times, or the result of the last look when none
found one; and it returns the empty string exactly when none of the
`max(nRetries, 0) + 1` looks found a non-empty body. -/
theorem blocking_fetch_spec (env : Nat → PumpInput) (uri : String) (nRetries tRetry_ms : Int)
    (w : World) :
    (getJSONForURI env uri nRetries tRetry_ms w).2.pumps ≤ w.pumps + (max nRetries 0).toNat ∧
    (∀ body, w.g.g_fetchCache uri = some body → body ≠ "" →
      (getJSONForURI env uri nRetries tRetry_ms w).1 = body ∧
      (getJSONForURI env uri nRetries tRetry_ms w).2.pumps = w.pumps ∧
      (getJSONForURI env uri nRetries tRetry_ms w).2.g
        = { w.g with g_fetchCache := cacheErase w.g.g_fetchCache uri }) ∧
    (∃ j, j ≤ (max nRetries 0).toNat ∧
      getJSONForURI env uri nRetries tRetry_ms w = checkAfter env uri w j ∧
      (getJSONForURI env uri nRetries tRetry_ms w).2.pumps = w.pumps + j ∧
      (∀ i, i < j → (checkAfter env uri w i).1 = "") ∧
      ((checkAfter env uri w j).1 ≠ "" ∨ j = (max nRetries 0).toNat)) ∧
    ((getJSONForURI env uri nRetries tRetry_ms w).1 = "" ↔
      ∀ i, i ≤ (max nRetries 0).toNat → (checkAfter env uri w i).1 = "") := by
  have hN : (max nRetries 0).toNat = nRetries.toNat := by
    rcases le_total nRetries 0 with h | h
    · rw [max_eq_right h]
      simp [Int.toNat_eq_zero.2 h]
    · rw [max_eq_left h]
  rw [hN]
  obtain ⟨j, hj, h1, h2, h3⟩ := retryLoop_checks env uri w nRetries.toNat 0
  simp only [Nat.zero_add] at h1 h2 h3
  have hres : getJSONForURI env uri nRetries tRetry_ms w = checkAfter env uri w j := h1
  have hp := checkAfter_pumps env uri w j
  refine ⟨?_, ?_, ⟨j, hj, hres, by rw [hres]; exact hp, h2, h3⟩, ?_⟩
  · rw [hres, hp]
    omega
  · intro body hb hne
    have h0 : checkAfter env uri w 0
        = (body, { w with g := { w.g with g_fetchCache := cacheErase w.g.g_fetchCache uri } }) := by
      simp [checkAfter, getJSONForURI_impl, hb]
    have hj0 : j = 0 := by
      by_contra hc
      have := h2 0 (Nat.pos_of_ne_zero hc)
      rw [h0] at this
      exact hne this
    rw [hres, hj0, h0]
    exact ⟨rfl, rfl, rfl⟩
  · rw [hres]
    constructor
    · intro he i hi
      rcases h3 with h3 | h3
      · exact absurd he h3
      · rcases Nat.lt_or_ge i j with hlt | hge
        · exact h2 i hlt
        · have : i = j := by omega
          rw [this]
          exact he
    · intro hall
      exact hall j hj

/-- C11 on the scenario of the specification: the fetch of item 100 right after the
round has started finds nothing at look 0 and the body at look 1, after one pump. -/
theorem blocking_fetch_spec_witness :
    (getJSONForURI scenarioEnv (getItemURI 100) 10 1000 (roundStart scenarioEnv [100] {})).1
      = body100 ∧
    (getJSONForURI scenarioEnv (getItemURI 100) 10 1000 (roundStart scenarioEnv [100] {})).2.pumps
      = (roundStart scenarioEnv [100] {}).pumps + 1 ∧
    (getJSONForURI scenarioEnv (getItemURI 100) 10 1000 (roundStart scenarioEnv [100] {})).2.pumps
      ≤ (roundStart scenarioEnv [100] {}).pumps + (max (10 : Int) 0).toNat :=
  ⟨by decide, by decide,
    (blocking_fetch_spec scenarioEnv (getItemURI 100) 10 1000
      (roundStart scenarioEnv [100] {})).1⟩

/-! ## The round of the program as an instance of the round over a fetcher -/

theorem phaseA_step_eq (P : Parsers) (env : Nat → PumpInput) :
    phaseA_step P env = phaseA_stepG P (worldFetcher env) := rfl

theorem phaseB_step_eq (P : Parsers) (env : Nat → PumpInput) :
    phaseB_step P env = phaseB_stepG P (worldFetcher env) := rfl

/-- The round of the program is the generic round over the program's fetcher, started
after the enqueues and the first pump. -/
theorem round_eq_roundG (P : Parsers) (env : Nat → PumpInput) (ids : List Int) (w : World) :
    round P env ids w = roundG P (worldFetcher env) ids (roundStart env ids w) := rfl

/-! ## The round over any fetcher -/

theorem mapInsert_length {α : Type} (k : Int) (v : α) (l : List (Int × α))
    (h : k ∉ l.map Prod.fst) : (mapInsert k v l).length = l.length + 1 := by
  induction l with
  | nil => rfl
  | cons x xs ih =>
    simp only [List.map_cons, List.mem_cons, not_or] at h
    simp only [mapInsert]
    split
    · rfl
    · rw [if_neg h.1]
      simp only [List.length_cons]
      rw [ih h.2]

theorem mapSet_ne (m : Int → Option String) (k : Int) (v : String) (j : Int) (h : j ≠ k) :
    mapSet m k v j = m j := by
  simp [mapSet, h]

theorem roundFacts_fresh (P : Parsers) (r : Round) (h : RoundFacts P r) (id : Int)
    (hid : (r.by_ id).isSome = false) : ∀ e ∈ r.comments, e.1 ≠ id := by
  intro e he heq
  obtain ⟨_, _, _, _, _, hs, _⟩ := h.2.1 e he
  rw [heq, hid] at hs
  cases hs

theorem roundFacts_phaseA_stepG {σ : Type} (P : Parsers) (Φ : Fetcher σ) (rw : Round × σ)
    (id : Int) (h : RoundFacts P rw.1) : RoundFacts P (phaseA_stepG P Φ rw id).1 := by
  unfold phaseA_stepG
  dsimp only
  by_cases hby : (rw.1.by_ id).isSome = true
  · rw [if_pos hby]; exact h
  · rw [if_neg hby]
    have hfresh := roundFacts_fresh P rw.1 h id (by simpa using hby)
    obtain ⟨hs, hm, hn⟩ := h
    have keep1 : ∀ e ∈ rw.1.comments, ∃ body,
        mapSet rw.1.raw id (Φ.fetch id rw.2).1 e.1 = some body ∧ body ≠ "" ∧
        e.2 = parseComment P (P.parseJSONMap body) ∧
        rw.1.by_ e.1 = P.parseJSONMap body "by" ∧ (rw.1.by_ e.1).isSome = true ∧
        getItemType (P.parseJSONMap body) = .Comment := by
      intro e he
      rw [mapSet_ne _ _ _ _ (hfresh e he)]
      exact hm e he
    split
    · exact ⟨hs, keep1, hn⟩
    · next hjson =>
      split
      · exact ⟨hs, keep1, hn⟩
      · next a ha =>
        have keep2 : ∀ e ∈ rw.1.comments, ∃ body,
            mapSet rw.1.raw id (Φ.fetch id rw.2).1 e.1 = some body ∧ body ≠ "" ∧
            e.2 = parseComment P (P.parseJSONMap body) ∧
            mapSet rw.1.by_ id a e.1 = P.parseJSONMap body "by" ∧
            (mapSet rw.1.by_ id a e.1).isSome = true ∧
            getItemType (P.parseJSONMap body) = .Comment := by
          intro e he
          rw [mapSet_ne rw.1.by_ id a e.1 (hfresh e he)]
          exact keep1 e he
        split
        · next hty =>
          refine ⟨mapInsert_sorted _ _ _ hs, ?_, ?_⟩
          · intro e he
            rcases mem_mapInsert _ _ _ e he with h1 | h1
            · rw [h1]
              refine ⟨(Φ.fetch id rw.2).1, by simp [mapSet], hjson, rfl, ?_, by simp [mapSet], hty⟩
              simp [mapSet, ha]
            · exact keep2 e h1
          · show rw.1.nComments + 1 = _
            rw [mapInsert_length, hn]
            intro hmem
            obtain ⟨e, he, heq⟩ := List.mem_map.1 hmem
            exact hfresh e he heq
        · exact ⟨hs, keep2, hn⟩

theorem roundFacts_phaseAG {σ : Type} (P : Parsers) (Φ : Fetcher σ) (ids : List Int)
    (rw : Round × σ) (h : RoundFacts P rw.1) : RoundFacts P (phaseAG P Φ ids rw).1 := by
  unfold phaseAG
  induction ids generalizing rw with
  | nil => exact h
  | cons x xs ih => exact ih _ (roundFacts_phaseA_stepG P Φ rw x h)

theorem roundFacts_phaseB_stepG {σ : Type} (P : Parsers) (Φ : Fetcher σ) (rw : Round × σ)
    (id : Int) (h : RoundFacts P rw.1) : RoundFacts P (phaseB_stepG P Φ rw id).1 := by
  unfold phaseB_stepG
  dsimp only
  by_cases hby : (rw.1.by_ id).isSome = true
  · rw [if_pos hby]; exact h
  · rw [if_neg hby]
    have hfresh := roundFacts_fresh P rw.1 h id (by simpa using hby)
    obtain ⟨hs, hm, hn⟩ := h
    split
    · exact ⟨hs, hm, hn⟩
    · split
      · exact ⟨hs, hm, hn⟩
      · next a ha =>
        refine ⟨hs, ?_, hn⟩
        intro e he
        show ∃ body, rw.1.raw e.1 = some body ∧ body ≠ "" ∧ _ ∧
          mapSet rw.1.by_ id a e.1 = _ ∧ (mapSet rw.1.by_ id a e.1).isSome = true ∧ _
        rw [mapSet_ne _ _ _ _ (hfresh e he)]
        exact hm e he

theorem roundFacts_phaseBG {σ : Type} (P : Parsers) (Φ : Fetcher σ) (parents : List Int)
    (rw : Round × σ) (h : RoundFacts P rw.1) : RoundFacts P (phaseBG P Φ parents rw).1 := by
  unfold phaseBG
  induction parents generalizing rw with
  | nil => exact h
  | cons x xs ih => exact ih _ (roundFacts_phaseB_stepG P Φ rw x h)

theorem roundFacts_empty (P : Parsers) : RoundFacts P {} := by
  refine ⟨by simp, ?_, rfl⟩
  intro e he
  simp at he

theorem phaseA_stepG_commit {σ : Type} (P : Parsers) (Φ : Fetcher σ) (rw : Round × σ)
    (id : Int) :
    (phaseA_stepG P Φ rw id).1.nUnknown = rw.1.nUnknown ∧
    (phaseA_stepG P Φ rw id).1.nUpdated = rw.1.nUpdated ∧
    (phaseA_stepG P Φ rw id).1.puts = rw.1.puts := by
  unfold phaseA_stepG
  dsimp only
  split
  · exact ⟨rfl, rfl, rfl⟩
  · split
    · exact ⟨rfl, rfl, rfl⟩
    · split
      · exact ⟨rfl, rfl, rfl⟩
      · split <;> exact ⟨rfl, rfl, rfl⟩

theorem phaseAG_commit {σ : Type} (P : Parsers) (Φ : Fetcher σ) (ids : List Int)
    (rw : Round × σ) :
    (phaseAG P Φ ids rw).1.nUnknown = rw.1.nUnknown ∧
    (phaseAG P Φ ids rw).1.nUpdated = rw.1.nUpdated ∧
    (phaseAG P Φ ids rw).1.puts = rw.1.puts := by
  unfold phaseAG
  induction ids generalizing rw with
  | nil => exact ⟨rfl, rfl, rfl⟩
  | cons x xs ih =>
    simp only [List.foldl]
    obtain ⟨a, b, c⟩ := ih (phaseA_stepG P Φ rw x)
    obtain ⟨a1, b1, c1⟩ := phaseA_stepG_commit P Φ rw x
    exact ⟨a.trans a1, b.trans b1, c.trans c1⟩

theorem phaseB_stepG_keeps {σ : Type} (P : Parsers) (Φ : Fetcher σ) (rw : Round × σ)
    (id : Int) :
    (phaseB_stepG P Φ rw id).1.nUnknown = rw.1.nUnknown ∧
    (phaseB_stepG P Φ rw id).1.nUpdated = rw.1.nUpdated ∧
    (phaseB_stepG P Φ rw id).1.puts = rw.1.puts ∧
    (phaseB_stepG P Φ rw id).1.comments = rw.1.comments ∧
    (phaseB_stepG P Φ rw id).1.raw = rw.1.raw ∧
    (phaseB_stepG P Φ rw id).1.nComments = rw.1.nComments ∧
    (phaseB_stepG P Φ rw id).1.nOther = rw.1.nOther ∧
    (phaseB_stepG P Φ rw id).1.parents = rw.1.parents := by
  unfold phaseB_stepG
  dsimp only
  split
  · exact ⟨rfl, rfl, rfl, rfl, rfl, rfl, rfl, rfl⟩
  · split
    · exact ⟨rfl, rfl, rfl, rfl, rfl, rfl, rfl, rfl⟩
    · split <;> exact ⟨rfl, rfl, rfl, rfl, rfl, rfl, rfl, rfl⟩

theorem phaseBG_keeps {σ : Type} (P : Parsers) (Φ : Fetcher σ) (parents : List Int)
    (rw : Round × σ) :
    (phaseBG P Φ parents rw).1.nUnknown = rw.1.nUnknown ∧
    (phaseBG P Φ parents rw).1.nUpdated = rw.1.nUpdated ∧
    (phaseBG P Φ parents rw).1.puts = rw.1.puts ∧
    (phaseBG P Φ parents rw).1.comments = rw.1.comments ∧
    (phaseBG P Φ parents rw).1.raw = rw.1.raw ∧
    (phaseBG P Φ parents rw).1.nComments = rw.1.nComments ∧
    (phaseBG P Φ parents rw).1.nOther = rw.1.nOther ∧
    (phaseBG P Φ parents rw).1.parents = rw.1.parents := by
  unfold phaseBG
  induction parents generalizing rw with
  | nil => exact ⟨rfl, rfl, rfl, rfl, rfl, rfl, rfl, rfl⟩
  | cons x xs ih =>
    simp only [List.foldl]
    obtain ⟨a, b, c, d, e, f, g, h⟩ := ih (phaseB_stepG P Φ rw x)
    obtain ⟨a1, b1, c1, d1, e1, f1, g1, h1⟩ := phaseB_stepG_keeps P Φ rw x
    exact ⟨a.trans a1, b.trans b1, c.trans c1, d.trans d1, e.trans e1, f.trans f1,
      g.trans g1, h.trans h1⟩

/-- The end of a round over any fetcher: the commit loop runs to its end, and what it
leaves is determined by the maps of the two fetch loops. -/
theorem roundG_facts {σ : Type} (P : Parsers) (Φ : Fetcher σ) (ids : List Int) (w : σ) :
    ∃ r, (roundG P Φ ids w).1 = some r ∧ RoundFacts P r ∧
      r.comments = (phaseAG P Φ ids ({}, w)).1.comments ∧
      r.raw = (phaseAG P Φ ids ({}, w)).1.raw ∧
      r.by_ = (phaseBG P Φ (phaseAG P Φ ids ({}, w)).1.parents (phaseAG P Φ ids ({}, w))).1.by_ ∧
      r.nErrors
        = (phaseBG P Φ (phaseAG P Φ ids ({}, w)).1.parents (phaseAG P Φ ids ({}, w))).1.nErrors ∧
      r.nOther = (phaseAG P Φ ids ({}, w)).1.nOther ∧
      r.nUnknown = (r.comments.filter (fun e => (r.by_ e.2.parent).isNone)).length ∧
      r.nUpdated = (r.comments.filter (fun e => (r.by_ e.2.parent).isSome)).length ∧
      r.puts = commitPuts r.by_ r.raw r.comments := by
  have hA : RoundFacts P (phaseAG P Φ ids ({}, w)).1 :=
    roundFacts_phaseAG P Φ ids _ (roundFacts_empty P)
  have hB := roundFacts_phaseBG P Φ (phaseAG P Φ ids ({}, w)).1.parents _ hA
  obtain ⟨a1, a2, a3⟩ := phaseAG_commit P Φ ids ({}, w)
  obtain ⟨b1, b2, b3, b4, b5, b6, b7, _⟩ := phaseBG_keeps P Φ
    (phaseAG P Φ ids ({}, w)).1.parents (phaseAG P Φ ids ({}, w))
  have hround : (roundG P Φ ids w).1 = phaseC_loop
      (phaseBG P Φ (phaseAG P Φ ids ({}, w)).1.parents (phaseAG P Φ ids ({}, w))).1.comments
      (phaseBG P Φ (phaseAG P Φ ids ({}, w)).1.parents (phaseAG P Φ ids ({}, w))).1 := rfl
  rw [hround]
  generalize phaseBG P Φ (phaseAG P Φ ids ({}, w)).1.parents (phaseAG P Φ ids ({}, w)) = rb at *
  obtain ⟨r1, h1, h2, h3, h4, _, h6, h7, h8, h9, h10, h11⟩ :=
    phaseC_loop_spec rb.1.comments rb.1 (fun e he => by
      obtain ⟨body, hb, _⟩ := hB.2.1 e he
      rw [hb]; rfl)
  refine ⟨r1, h1, ?_, ?_, ?_, h2, h8, ?_, ?_, ?_, ?_⟩
  · refine ⟨by rw [h4]; exact hB.1, ?_, by rw [h6, h4]; exact hB.2.2⟩
    intro e he
    rw [h4] at he
    rw [h3, h2]
    exact hB.2.1 e he
  · rw [h4]; exact b4
  · rw [h3]; exact b5
  · rw [h7]; exact b7
  · rw [h9, h2, h4, b1, a1]; simp
  · rw [h10, h2, h4, b2, a2]; simp
  · rw [h11, h2, h3, h4, b3, a3]; simp

/-! ## What a round commits -/

theorem commitPuts_ids (by_ raw : Int → Option String) (es : List (Int × Comment))
    (hraw : ∀ e ∈ es, (raw e.1).isSome = true) :
    (commitPuts by_ raw es).map Put.id
      = (es.filter (fun e => (by_ e.2.parent).isSome)).map Prod.fst := by
  induction es with
  | nil => rfl
  | cons e es ih =>
    have he := hraw e (List.mem_cons_self _ _)
    have hes : ∀ x ∈ es, (raw x.1).isSome = true := fun x hx => hraw x (List.mem_cons_of_mem _ hx)
    obtain ⟨body, hbody⟩ := Option.isSome_iff_exists.1 he
    have ih2 := ih hes
    unfold commitPuts at ih2 ⊢
    cases hp : by_ e.2.parent with
    | none => simp [List.filterMap_cons, List.filter_cons, hp, ih2]
    | some author => simp [List.filterMap_cons, List.filter_cons, hp, hbody, ih2]

theorem filter_some_none_length (by_ : Int → Option String) (es : List (Int × Comment)) :
    (es.filter (fun e => (by_ e.2.parent).isSome)).length
      + (es.filter (fun e => (by_ e.2.parent).isNone)).length = es.length := by
  induction es with
  | nil => rfl
  | cons e es ih =>
    cases hp : by_ e.2.parent with
    | none => simp [List.filter_cons, hp]; omega
    | some a => simp [List.filter_cons, hp]; omega

theorem roundFacts_raw (P : Parsers) (r : Round) (h : RoundFacts P r) :
    ∀ e ∈ r.comments, (r.raw e.1).isSome = true := by
  intro e he
  obtain ⟨body, hb, _⟩ := h.2.1 e he
  rw [hb]; rfl

theorem roundFacts_nodup (P : Parsers) (r : Round) (h : RoundFacts P r) :
    (r.comments.map Prod.fst).Nodup :=
  h.1.imp (fun hab => ne_of_lt hab)

/-- C12. Exactly once per id per round: for every change set, duplicates included,
and every transport, the round ends normally; no id is the name of more than one file
written in the round; every file written belongs to a comment recorded in the first
loop whose parent has an author after the second loop; and every such comment has
exactly one file. -/
theorem commits_once_per_id (P : Parsers) (env : Nat → PumpInput) (ids : List Int) (w : World) :
    ∃ r, (round P env ids w).1 = some r ∧
      r.comments = (phaseA P env ids ({}, roundStart env ids w)).1.comments ∧
      r.by_ = (phaseB P env (phaseA P env ids ({}, roundStart env ids w)).1.parents
        (phaseA P env ids ({}, roundStart env ids w))).1.by_ ∧
      (∀ id, (r.puts.map Put.id).count id ≤ 1) ∧
      (∀ e ∈ r.comments, (r.by_ e.2.parent).isSome = true →
        (r.puts.map Put.id).count e.1 = 1) ∧
      (∀ e ∈ r.comments, (r.by_ e.2.parent).isSome = false →
        (r.puts.map Put.id).count e.1 = 0) ∧
      (∀ p ∈ r.puts, ∃ e ∈ r.comments, p.id = e.1 ∧ r.by_ e.2.parent = some p.author ∧
        r.raw e.1 = some p.body) := by
  obtain ⟨r, h1, hf, hc, _, hb, _, _, _, _, hp⟩ :=
    roundG_facts P (worldFetcher env) ids (roundStart env ids w)
  have hids := commitPuts_ids r.by_ r.raw r.comments (roundFacts_raw P r hf)
  rw [← hp] at hids
  have hsub : ((r.comments.filter (fun e => (r.by_ e.2.parent).isSome)).map Prod.fst).Sublist
      (r.comments.map Prod.fst) := (List.filter_sublist _).map _
  have hnd : (r.puts.map Put.id).Nodup := by
    rw [hids]
    exact (roundFacts_nodup P r hf).sublist hsub
  refine ⟨r, h1, hc, hb, ?_, ?_, ?_, ?_⟩
  · intro id
    exact List.nodup_iff_count_le_one.1 hnd id
  · intro e he hsome
    apply List.count_eq_one_of_mem hnd
    rw [hids]
    exact List.mem_map_of_mem _ (List.mem_filter.2 ⟨he, hsome⟩)
  · intro e he hnone
    apply List.count_eq_zero_of_not_mem
    rw [hids]
    intro hmem
    obtain ⟨e2, he2, heq⟩ := List.mem_map.1 hmem
    obtain ⟨he2c, he2s⟩ := List.mem_filter.1 he2
    have : e2 = e := sorted_keys_inj r.comments hf.1 e2 e he2c he heq
    rw [this, hnone] at he2s
    cases he2s
  · intro p hpm
    rw [hp] at hpm
    exact mem_commitPuts _ _ _ p hpm

/-- C12 on the scenario of the specification with the id listed twice: one file. -/
theorem commits_once_per_id_witness :
    (round tableParsers scenarioEnv [100, 100] {}).1.map (fun r => r.puts)
      = some [⟨"bob", 100, body100⟩] ∧
    ∃ r, (round tableParsers scenarioEnv [100, 100] {}).1 = some r ∧
      r.comments = (phaseA tableParsers scenarioEnv [100, 100]
        ({}, roundStart scenarioEnv [100, 100] {})).1.comments ∧
      r.by_ = (phaseB tableParsers scenarioEnv
        (phaseA tableParsers scenarioEnv [100, 100]
          ({}, roundStart scenarioEnv [100, 100] {})).1.parents
        (phaseA tableParsers scenarioEnv [100, 100]
          ({}, roundStart scenarioEnv [100, 100] {}))).1.by_ ∧
      (∀ id, (r.puts.map Put.id).count id ≤ 1) ∧
      (∀ e ∈ r.comments, (r.by_ e.2.parent).isSome = true →
        (r.puts.map Put.id).count e.1 = 1) ∧
      (∀ e ∈ r.comments, (r.by_ e.2.parent).isSome = false →
        (r.puts.map Put.id).count e.1 = 0) ∧
      (∀ p ∈ r.puts, ∃ e ∈ r.comments, p.id = e.1 ∧ r.by_ e.2.parent = some p.author ∧
        r.raw e.1 = some p.body) :=
  ⟨by decide, commits_once_per_id tableParsers scenarioEnv [100, 100] {}⟩

/-- C17. The counters of a round: for every change set, duplicates included, and every
transport, `nUpdated + nUnknown = nComments`, and `nComments` is the number of entries
of `comments` as the first loop leaves it, whose ids are pairwise distinct. -/
theorem round_counters_add_up (P : Parsers) (env : Nat → PumpInput) (ids : List Int)
    (w : World) :
    ∃ r, (round P env ids w).1 = some r ∧
      r.nUpdated + r.nUnknown = r.nComments ∧
      r.nComments = (phaseA P env ids ({}, roundStart env ids w)).1.comments.length ∧
      ((phaseA P env ids ({}, roundStart env ids w)).1.comments.map Prod.fst).Nodup ∧
      r.comments = (phaseA P env ids ({}, roundStart env ids w)).1.comments := by
  obtain ⟨r, h1, hf, hc, _, _, _, _, hu, hd, _⟩ :=
    roundG_facts P (worldFetcher env) ids (roundStart env ids w)
  have hc2 : r.comments = (phaseA P env ids ({}, roundStart env ids w)).1.comments := hc
  refine ⟨r, h1, ?_, ?_, ?_, hc2⟩
  · rw [hu, hd, hf.2.2]
    exact filter_some_none_length r.by_ r.comments
  · rw [hf.2.2, hc2]
  · rw [← hc2]
    exact roundFacts_nodup P r hf

/-- C17 on the scenario of the specification with the id listed twice. -/
theorem round_counters_add_up_witness :
    (round tableParsers scenarioEnv [100, 100] {}).1.map
        (fun r => (r.nComments, r.nUpdated, r.nUnknown)) = some (1, 1, 0) ∧
    ∃ r, (round tableParsers scenarioEnv [100, 100] {}).1 = some r ∧
      r.nUpdated + r.nUnknown = r.nComments ∧
      r.nComments = (phaseA tableParsers scenarioEnv [100, 100]
        ({}, roundStart scenarioEnv [100, 100] {})).1.comments.length ∧
      ((phaseA tableParsers scenarioEnv [100, 100]
        ({}, roundStart scenarioEnv [100, 100] {})).1.comments.map Prod.fst).Nodup ∧
      r.comments = (phaseA tableParsers scenarioEnv [100, 100]
        ({}, roundStart scenarioEnv [100, 100] {})).1.comments :=
  ⟨by decide, round_counters_add_up tableParsers scenarioEnv [100, 100] {}⟩

/-- C18. The raw body at commit: every round ends normally (the lookup `raw.at(id)` of
the commit loop never throws); every recorded comment has an entry in `raw`, the entry
is not empty, and the comment, its author in `by` and its type comment are what that
entry decodes to; every file written carries the entry of its id, which is not
empty. -/
theorem raw_body_at_commit (P : Parsers) (env : Nat → PumpInput) (ids : List Int) (w : World) :
    ∃ r, (round P env ids w).1 = some r ∧
      r.raw = (phaseA P env ids ({}, roundStart env ids w)).1.raw ∧
      (∀ e ∈ r.comments, ∃ body, r.raw e.1 = some body ∧ body ≠ "" ∧
        e.2 = parseComment P (P.parseJSONMap body) ∧
        r.by_ e.1 = P.parseJSONMap body "by" ∧ (r.by_ e.1).isSome = true ∧
        getItemType (P.parseJSONMap body) = .Comment) ∧
      (∀ p ∈ r.puts, p.body ≠ "" ∧ r.raw p.id = some p.body ∧
        (p.id, parseComment P (P.parseJSONMap p.body)) ∈ r.comments) := by
  obtain ⟨r, h1, hf, _, hr, _, _, _, _, _, hp⟩ :=
    roundG_facts P (worldFetcher env) ids (roundStart env ids w)
  refine ⟨r, h1, hr, hf.2.1, ?_⟩
  intro p hpm
  rw [hp] at hpm
  obtain ⟨e, he, hid, _, hraw⟩ := mem_commitPuts _ _ _ p hpm
  obtain ⟨body, hb, hne, hcur, _⟩ := hf.2.1 e he
  have hbody : body = p.body := by
    rw [hb] at hraw
    exact Option.some.inj hraw
  rw [← hbody, hid]
  refine ⟨hne, hb, ?_⟩
  rw [← hcur]
  exact he

/-- C18 on the scenario of the specification: the file of item 100 carries
`body100`. -/
theorem raw_body_at_commit_witness :
    (round tableParsers scenarioEnv [100] {}).1.map (fun r => (r.raw 100, r.puts))
      = some (some body100, [⟨"bob", 100, body100⟩]) ∧
    ∃ r, (round tableParsers scenarioEnv [100] {}).1 = some r ∧
      r.raw = (phaseA tableParsers scenarioEnv [100] ({}, roundStart scenarioEnv [100] {})).1.raw ∧
      (∀ e ∈ r.comments, ∃ body, r.raw e.1 = some body ∧ body ≠ "" ∧
        e.2 = parseComment tableParsers (tableParsers.parseJSONMap body) ∧
        r.by_ e.1 = tableParsers.parseJSONMap body "by" ∧ (r.by_ e.1).isSome = true ∧
        getItemType (tableParsers.parseJSONMap body) = .Comment) ∧
      (∀ p ∈ r.puts, p.body ≠ "" ∧ r.raw p.id = some p.body ∧
        (p.id, parseComment tableParsers (tableParsers.parseJSONMap p.body)) ∈ r.comments) :=
  ⟨by decide, raw_body_at_commit tableParsers scenarioEnv [100] {}⟩

/-! ## A failing item under a deterministic fetch outcome -/

theorem oracle_stepA_by (P : Parsers) (F : Int → String) (f : Int)
    (hf : F f = "" ∨ P.parseJSONMap (F f) "by" = none) (r : Round) (x : Int)
    (h : r.by_ f = none) : (phaseA_stepG P (oracleFetcher F) (r, ()) x).1.by_ f = none := by
  unfold phaseA_stepG
  simp only [oracleFetcher]
  split
  · exact h
  · split
    · exact h
    · next hjson =>
      split
      · exact h
      · next a ha =>
        have hx : f ≠ x := by
          intro e
          rw [← e] at hjson ha
          rcases hf with h1 | h1
          · exact hjson h1
          · rw [h1] at ha; cases ha
        split <;> exact (mapSet_ne _ _ _ _ hx).trans h

theorem oracle_stepB_by (P : Parsers) (F : Int → String) (f : Int)
    (hf : F f = "" ∨ P.parseJSONMap (F f) "by" = none) (r : Round) (x : Int)
    (h : r.by_ f = none) : (phaseB_stepG P (oracleFetcher F) (r, ()) x).1.by_ f = none := by
  unfold phaseB_stepG
  simp only [oracleFetcher]
  split
  · exact h
  · split
    · exact h
    · next hjson =>
      split
      · exact h
      · next a ha =>
        have hx : f ≠ x := by
          intro e
          rw [← e] at hjson ha
          rcases hf with h1 | h1
          · exact hjson h1
          · rw [h1] at ha; cases ha
        exact (mapSet_ne _ _ _ _ hx).trans h

theorem oracle_stepA_fail (P : Parsers) (F : Int → String) (f : Int)
    (hf : F f = "" ∨ P.parseJSONMap (F f) "by" = none) (r1 r2 : Round) (k : Nat)
    (h : SameButErrors f k r1 r2) (hby : r2.by_ f = none) :
    SameButErrors f (k + 1) r1 (phaseA_stepG P (oracleFetcher F) (r2, ()) f).1 := by
  obtain ⟨a1, a2, a3, a4, a5, a6, a7, a8, a9, a10⟩ := h
  unfold phaseA_stepG
  simp only [oracleFetcher, hby, Option.isSome_none, Bool.false_eq_true, if_false]
  have hraw : ∀ j, j ≠ f → mapSet r2.raw f (F f) j = r1.raw j := by
    intro j hj
    rw [mapSet_ne _ _ _ _ hj]
    exact a9 j hj
  split
  · exact ⟨a1, a2, a3, a4, a5, a6, a7, a8, hraw, by show r2.nErrors + 1 = _; omega⟩
  · next hjson =>
    rcases hf with h1 | h1
    · exact absurd h1 hjson
    · rw [h1]
      exact ⟨a1, a2, a3, a4, a5, a6, a7, a8, hraw, by show r2.nErrors + 1 = _; omega⟩

theorem oracle_stepA_same (P : Parsers) (F : Int → String) (f : Int) (r1 r2 : Round) (k : Nat)
    (x : Int) (h : SameButErrors f k r1 r2) :
    SameButErrors f k (phaseA_stepG P (oracleFetcher F) (r1, ()) x).1
      (phaseA_stepG P (oracleFetcher F) (r2, ()) x).1 := by
  obtain ⟨a1, a2, a3, a4, a5, a6, a7, a8, a9, a10⟩ := h
  have hraw : ∀ j, j ≠ f → mapSet r2.raw x (F x) j = mapSet r1.raw x (F x) j := by
    intro j hj
    unfold mapSet
    split
    · rfl
    · exact a9 j hj
  unfold phaseA_stepG
  simp only [oracleFetcher, a1]
  split
  · exact ⟨a1, a2, a3, a4, a5, a6, a7, a8, a9, a10⟩
  · split
    · exact ⟨rfl, a2, a3, a4, a5, a6, a7, a8, hraw, by show r2.nErrors + 1 = _ + 1 + k; omega⟩
    · split
      · exact ⟨rfl, a2, a3, a4, a5, a6, a7, a8, hraw, by
          show r2.nErrors + 1 = _ + 1 + k; omega⟩
      · split
        · exact ⟨rfl, by show mapInsert _ _ r2.comments = _; rw [a2],
            by show r2.parents ++ _ = _; rw [a3], by show r2.nComments + 1 = _; rw [a4],
            a5, a6, a7, a8, hraw, a10⟩
        · exact ⟨rfl, a2, a3, a4, by show r2.nOther + 1 = _; rw [a5], a6, a7, a8, hraw, a10⟩

theorem oracle_phaseA_insert (P : Parsers) (F : Int → String) (f : Int)
    (hf : F f = "" ∨ P.parseJSONMap (F f) "by" = none) (ids : List Int) :
    ∀ (r1 r2 : Round) (k : Nat), SameButErrors f k r1 r2 → r2.by_ f = none →
      SameButErrors f (k + ids.count f)
        (phaseAG P (oracleFetcher F) (ids.filter (fun x => x ≠ f)) (r1, ())).1
        (phaseAG P (oracleFetcher F) ids (r2, ())).1 ∧
      (phaseAG P (oracleFetcher F) ids (r2, ())).1.by_ f = none := by
  induction ids with
  | nil => intro r1 r2 k h hby; exact ⟨by simpa [phaseAG] using h, hby⟩
  | cons x xs ih =>
    intro r1 r2 k h hby
    by_cases hx : x = f
    · subst hx
      have h1 := oracle_stepA_fail P F x hf r1 r2 k h hby
      have h2 := oracle_stepA_by P F x hf r2 x hby
      obtain ⟨c1, c2⟩ := ih r1 _ (k + 1) h1 h2
      simp only [List.filter_cons, ne_eq, not_true_eq_false, decide_False, List.count_cons_self]
      refine ⟨?_, c2⟩
      rw [show k + (List.count x xs + 1) = k + 1 + List.count x xs by omega]
      exact c1
    · have h1 := oracle_stepA_same P F f r1 r2 k x h
      have h2 := oracle_stepA_by P F f hf r2 x hby
      obtain ⟨c1, c2⟩ := ih _ _ k h1 h2
      have hcount : List.count f (x :: xs) = List.count f xs := by
        rw [List.count_cons]
        simp [hx]
      rw [hcount]
      simp only [List.filter_cons, ne_eq, hx, not_false_eq_true, decide_True, if_true]
      exact ⟨c1, c2⟩

theorem oracle_stepB_same (P : Parsers) (F : Int → String) (f : Int) (r1 r2 : Round) (k : Nat)
    (x : Int) (h : SameButErrors f k r1 r2) :
    SameButErrors f k (phaseB_stepG P (oracleFetcher F) (r1, ()) x).1
      (phaseB_stepG P (oracleFetcher F) (r2, ()) x).1 := by
  obtain ⟨a1, a2, a3, a4, a5, a6, a7, a8, a9, a10⟩ := h
  unfold phaseB_stepG
  simp only [oracleFetcher, a1]
  split
  · exact ⟨a1, a2, a3, a4, a5, a6, a7, a8, a9, a10⟩
  · split
    · exact ⟨rfl, a2, a3, a4, a5, a6, a7, a8, a9, by show r2.nErrors + 1 = _ + 1 + k; omega⟩
    · split
      · exact ⟨rfl, a2, a3, a4, a5, a6, a7, a8, a9, by show r2.nErrors + 1 = _ + 1 + k; omega⟩
      · exact ⟨rfl, a2, a3, a4, a5, a6, a7, a8, a9, a10⟩

theorem oracle_phaseB_same (P : Parsers) (F : Int → String) (f : Int)
    (hf : F f = "" ∨ P.parseJSONMap (F f) "by" = none) (parents : List Int) :
    ∀ (r1 r2 : Round) (k : Nat), SameButErrors f k r1 r2 → r2.by_ f = none →
      SameButErrors f k (phaseBG P (oracleFetcher F) parents (r1, ())).1
        (phaseBG P (oracleFetcher F) parents (r2, ())).1 ∧
      (phaseBG P (oracleFetcher F) parents (r2, ())).1.by_ f = none := by
  induction parents with
  | nil => intro r1 r2 k h hby; exact ⟨h, hby⟩
  | cons x xs ih =>
    intro r1 r2 k h hby
    exact ih _ _ k (oracle_stepB_same P F f r1 r2 k x h) (oracle_stepB_by P F f hf r2 x hby)

theorem commitPuts_congr (by_ raw1 raw2 : Int → Option String) (es : List (Int × Comment))
    (h : ∀ e ∈ es, raw2 e.1 = raw1 e.1) : commitPuts by_ raw2 es = commitPuts by_ raw1 es := by
  unfold commitPuts
  apply List.filterMap_congr
  intro e he
  rw [h e he]

theorem sameButErrors_refl (f : Int) (r : Round) : SameButErrors f 0 r r :=
  ⟨rfl, rfl, rfl, rfl, rfl, rfl, rfl, rfl, fun _ _ => rfl, rfl⟩

theorem oracle_round_filtered (P : Parsers) (F : Int → String) (f : Int)
    (hf : F f = "" ∨ P.parseJSONMap (F f) "by" = none) (ids : List Int) :
    ∃ rb rf, (roundG P (oracleFetcher F) (ids.filter (fun x => x ≠ f)) ()).1 = some rb ∧
      (roundG P (oracleFetcher F) ids ()).1 = some rf ∧
      rf.puts = rb.puts ∧ rf.nComments = rb.nComments ∧ rf.nUpdated = rb.nUpdated ∧
      rf.nUnknown = rb.nUnknown ∧ rf.nOther = rb.nOther ∧
      rf.nErrors = rb.nErrors + ids.count f := by
  obtain ⟨hA, hAby⟩ := oracle_phaseA_insert P F f hf ids {} {} 0 (sameButErrors_refl f {}) rfl
  rw [Nat.zero_add] at hA
  obtain ⟨hB, hBby⟩ := oracle_phaseB_same P F f hf
    (phaseAG P (oracleFetcher F) (ids.filter (fun x => x ≠ f)) ({}, ())).1.parents _ _ _ hA hAby
  have hpar : (phaseAG P (oracleFetcher F) ids ({}, ())).1.parents
      = (phaseAG P (oracleFetcher F) (ids.filter (fun x => x ≠ f)) ({}, ())).1.parents :=
    hA.2.2.1
  obtain ⟨rb, b1, bf, bc, br, bb, be, bo, bu, bd, bp⟩ :=
    roundG_facts P (oracleFetcher F) (ids.filter (fun x => x ≠ f)) ()
  obtain ⟨rf, f1, ff, fc, fr, fb, fe, fo, fu, fd, fp⟩ := roundG_facts P (oracleFetcher F) ids ()
  have hby : rf.by_ = rb.by_ := by
    rw [fb, bb, hpar]
    exact hB.1
  have hcomments : rf.comments = rb.comments := by
    rw [fc, bc]
    exact hA.2.1
  have hfby : rf.by_ f = none := by
    rw [fb, hpar]
    exact hBby
  refine ⟨rb, rf, b1, f1, ?_, ?_, ?_, ?_, ?_, ?_⟩
  · rw [fp, bp, hby, hcomments]
    apply commitPuts_congr
    intro e he
    have hne : e.1 ≠ f := by
      intro heq
      obtain ⟨_, _, _, _, _, hs, _⟩ := bf.2.1 e he
      rw [heq, ← hby, hfby] at hs
      cases hs
    rw [fr, br]
    exact hA.2.2.2.2.2.2.2.2.1 e.1 hne
  · rw [ff.2.2, bf.2.2, hcomments]
  · rw [fd, bd, hby, hcomments]
  · rw [fu, bu, hby, hcomments]
  · rw [fo, bo]
    exact hA.2.2.2.2.1
  · rw [fe, be, hpar]
    exact hB.2.2.2.2.2.2.2.2.2

/-- C13. Failures are contained: under a deterministic fetch outcome `F` (every fetch
of an id returns `F id`), let `f` be an id whose body is empty or has no readable
`by`, and let `ids2` be `ids` with occurrences of `f` inserted anywhere (the two lists
agree once the occurrences of `f` are removed).  Both rounds end normally and write
the same files in the same order, with the same `nComments`, `nUpdated`, `nUnknown`
and `nOther`; `nErrors` differs by the number of inserted occurrences.  This holds
whether or not `f` is the parent of a recorded comment. -/
theorem failing_item_contained (P : Parsers) (F : Int → String) (f : Int) (ids ids2 : List Int)
    (hf : F f = "" ∨ P.parseJSONMap (F f) "by" = none)
    (hins : ids2.filter (fun x => x ≠ f) = ids.filter (fun x => x ≠ f)) :
    ∃ r r2, (roundG P (oracleFetcher F) ids ()).1 = some r ∧
      (roundG P (oracleFetcher F) ids2 ()).1 = some r2 ∧
      r2.puts = r.puts ∧ r2.nComments = r.nComments ∧ r2.nUpdated = r.nUpdated ∧
      r2.nUnknown = r.nUnknown ∧ r2.nOther = r.nOther ∧
      r2.nErrors + ids.count f = r.nErrors + ids2.count f := by
  obtain ⟨rb, r, b1, h1, p1, c1, u1, k1, o1, e1⟩ := oracle_round_filtered P F f hf ids
  obtain ⟨rb2, r2, b2, h2, p2, c2, u2, k2, o2, e2⟩ := oracle_round_filtered P F f hf ids2
  rw [hins, b1] at b2
  have hrb : rb = rb2 := Option.some.inj b2
  subst hrb
  exact ⟨r, r2, h1, h2, p2.trans p1.symm, c2.trans c1.symm, u2.trans u1.symm,
    k2.trans k1.symm, o2.trans o1.symm, by omega⟩

/-- C13 on the scenario of the specification: inserting the failing id 200 before 100
leaves the file of item 100 and the counters as they were and adds one error. -/
theorem failing_item_contained_witness :
    (scenarioOracle 200 = "" ∨ tableParsers.parseJSONMap (scenarioOracle 200) "by" = none) ∧
    (roundG tableParsers (oracleFetcher scenarioOracle) [100] ()).1.map
        (fun r => (r.puts, r.nComments, r.nUpdated, r.nUnknown, r.nErrors))
      = some ([⟨"bob", 100, body100⟩], 1, 1, 0, 0) ∧
    (roundG tableParsers (oracleFetcher scenarioOracle) [200, 100] ()).1.map
        (fun r => (r.puts, r.nComments, r.nUpdated, r.nUnknown, r.nErrors))
      = some ([⟨"bob", 100, body100⟩], 1, 1, 0, 1) ∧
    ∃ r r2, (roundG tableParsers (oracleFetcher scenarioOracle) [100] ()).1 = some r ∧
      (roundG tableParsers (oracleFetcher scenarioOracle) [200, 100] ()).1 = some r2 ∧
      r2.puts = r.puts ∧ r2.nComments = r.nComments ∧ r2.nUpdated = r.nUpdated ∧
      r2.nUnknown = r.nUnknown ∧ r2.nOther = r.nOther ∧
      r2.nErrors + ([100] : List Int).count 200 = r.nErrors + ([200, 100] : List Int).count 200 :=
  ⟨by decide, by decide, by decide,
    failing_item_contained tableParsers scenarioOracle 200 [100] [200, 100] (by decide)
      (by decide)⟩

end HNReplies
